import Mathlib

/-
Verification development for the `placed` repository: a chunked tile archive
(fixed-width record codec, writer, byte-addressable seekable reader) and a
time-windowed streaming resolution engine.

Machine integers are modelled as `Nat` (with explicit `% 2^w` where the source
performs a narrowing cast); timestamps (`chrono::NaiveDateTime`) are modelled
as `Int` millisecond values, whose ordering agrees with chrono's. Fallible or
panicking operations return `Except` / `Option`.
-/

set_option autoImplicit false

/-- RGBA color tuple `[u8; 4]`, modelled as a 4-tuple of bytes. -/
abbrev Color : Type := Nat × Nat × Nat × Nat

/-- Mirrors `structures.rs` `StoredTilePlacement`: `x: u16, y: u16, color_index: u8,
ms_since_epoch: u32`. Field values are kept as `Nat`; the encoder applies the
byte masks exactly as the fixed-width little-endian bincode layout does. -/
structure StoredTilePlacement where
  x : Nat
  y : Nat
  color_index : Nat
  ms_since_epoch : Nat
  deriving DecidableEq

/-- Fixed-width little-endian encoding of one record (bincode legacy config,
`Fixint` + `LittleEndian`): `x` (2 bytes), `y` (2 bytes), `color_index` (1 byte),
`ms_since_epoch` (4 bytes) — 9 bytes total, in field declaration order. -/
def StoredTilePlacement.encode (r : StoredTilePlacement) : List Nat :=
  [r.x % 256, r.x / 256 % 256,
   r.y % 256, r.y / 256 % 256,
   r.color_index % 256,
   r.ms_since_epoch % 256, r.ms_since_epoch / 256 % 256,
   r.ms_since_epoch / 65536 % 256, r.ms_since_epoch / 16777216 % 256]

/-- Mirrors `StoredTilePlacement::encoded_size()`, which computes the size by
encoding a zero record and measuring the buffer. -/
def StoredTilePlacement.encodedSize : Nat :=
  (StoredTilePlacement.encode ⟨0, 0, 0, 0⟩).length

theorem StoredTilePlacement.encodedSize_eq : StoredTilePlacement.encodedSize = 9 := rfl

/-- Decoding of one 9-byte record (the bincode decode used by the reader's
iterator); any other byte count is a decode error. -/
def decodeStored (bs : List Nat) : Option StoredTilePlacement :=
  match bs with
  | [b0, b1, b2, b3, b4, b5, b6, b7, b8] =>
      some ⟨b0 + 256 * b1, b2 + 256 * b3, b4,
            b5 + 256 * (b6 + 256 * (b7 + 256 * b8))⟩
  | _ => none

/-- Mirrors `structures.rs` `DecodedTilePlacement` (color resolved through the
palette). -/
structure DecodedTilePlacement where
  x : Nat
  y : Nat
  ms_since_epoch : Nat
  color : Color
  deriving DecidableEq

/-- Mirrors `structures.rs` `CanvasSizeChange`. -/
structure CanvasSizeChange where
  width : Nat
  height : Nat
  ms_since_epoch : Nat
  deriving DecidableEq

/-- Mirrors `structures.rs` `ChunkDescription`. -/
structure ChunkDescription where
  id : Nat
  up_to_ms_since_epoch : Nat
  num_tiles : Nat
  deriving DecidableEq

/-- Mirrors `structures.rs` `Meta`. `color_id_to_tuple` (`BTreeMap<u8, [u8;4]>`)
is modelled as an association list; claims proved here only observe lookups,
lengths and values, never the BTreeMap's internal ordering. -/
structure Meta where
  canvas_size_changes : List CanvasSizeChange
  total_tile_placements : Nat
  last_tile_placed_at_ms_since_epoch : Nat
  color_id_to_tuple : List (Nat × Color)
  chunk_descs : List ChunkDescription
  deriving DecidableEq

/-- Association-list lookup, modelling `BTreeMap::get`. -/
def assocLookup {α β : Type} [DecidableEq α] : List (α × β) → α → Option β
  | [], _ => none
  | (k, v) :: rest, a => if k = a then some v else assocLookup rest a

/-- Association-list insert-or-replace, modelling `BTreeMap::insert` /
`from_iter` collision behaviour (a later binding for the same key wins). -/
def assocInsert {α β : Type} [DecidableEq α] : List (α × β) → α → β → List (α × β)
  | [], a, b => [(a, b)]
  | (k, v) :: rest, a, b => if k = a then (a, b) :: rest else (k, v) :: assocInsert rest a b

/-! ## Archive writer (`archive_writer.rs`) -/

/-- Mirrors `IntermediateTilePlacement`; `placed_at` is the chrono timestamp in
milliseconds, as an `Int`. -/
structure IntermediateTilePlacement where
  x : Nat
  y : Nat
  placed_at : Int
  color_index : Nat
  deriving DecidableEq

/-- Writer buffer state: the palette map `color_tuple_to_id : BTreeMap<[u8;4], u8>`
(modelled as an association list keyed by color; keys are distinct because an
entry is only added when the color is absent) and the buffered placements. The
`mla` container writer itself carries no state we observe before `finalize`. -/
structure PlacedArchiveWriter where
  color_tuple_to_id : List (Color × Nat)
  tile_placements : List IntermediateTilePlacement
  deriving DecidableEq

/-- Mirrors `PlacedArchiveWriter::new` (empty palette, no buffered placements). -/
def PlacedArchiveWriter.new : PlacedArchiveWriter := ⟨[], []⟩

/-- Mirrors `PlacedArchiveWriter::add_tile`: look the color up in the palette
map, inserting `len() as u8` (a truncating `u8` cast, hence `% 256`) when
absent, then push the placement. -/
def PlacedArchiveWriter.addTile (w : PlacedArchiveWriter) (x y : Nat) (color : Color)
    (placed_at : Int) : PlacedArchiveWriter :=
  let color_map_len := w.color_tuple_to_id.length % 256
  match assocLookup w.color_tuple_to_id color with
  | some i =>
      { w with tile_placements := w.tile_placements ++ [⟨x, y, placed_at, i⟩] }
  | none =>
      { color_tuple_to_id := w.color_tuple_to_id ++ [(color, color_map_len)],
        tile_placements := w.tile_placements ++ [⟨x, y, placed_at, color_map_len⟩] }

/-- One `add_tile` call's arguments. -/
structure AddCall where
  x : Nat
  y : Nat
  color : Color
  placed_at : Int
  deriving DecidableEq

/-- A writer as produced by its lifecycle: `new` followed by a sequence of
`add_tile` calls. -/
def mkWriter (adds : List AddCall) : PlacedArchiveWriter :=
  adds.foldl (fun w a => w.addTile a.x a.y a.color a.placed_at) PlacedArchiveWriter.new

/-- Insertion of one placement into a list sorted by `placed_at`. -/
def insertTile (p : IntermediateTilePlacement) :
    List IntermediateTilePlacement → List IntermediateTilePlacement
  | [] => [p]
  | q :: rest => if p.placed_at ≤ q.placed_at then p :: q :: rest else q :: insertTile p rest

/-- Comparison sort by `placed_at`, modelling `tile_placements.sort_unstable()`
with `Ord` comparing `placed_at` only. The source's `slice::sort_unstable`
guarantees a permutation ordered by `placed_at`; its ordering of equal-key
elements is unspecified and is never relied upon by any theorem below. -/
def sortTiles : List IntermediateTilePlacement → List IntermediateTilePlacement
  | [] => []
  | p :: rest => insertTile p (sortTiles rest)

/-- Mirrors `const NUM_CHUNKS: u32 = 64`. -/
def NUM_CHUNKS : Nat := 64

/-- Fuel-driven model of Rust `slice::chunks(s)` for `s ≥ 1`: successive groups
of `s` elements, the last group possibly shorter. (`chunks(0)` panics in Rust;
`finalize` below checks for that case before ever calling this.) -/
def listChunksF {α : Type} : Nat → Nat → List α → List (List α)
  | 0, _, _ => []
  | _, _, [] => []
  | f + 1, s, a :: rest => (a :: rest.take (s - 1)) :: listChunksF f s (rest.drop (s - 1))

/-- Rust `slice::chunks(s)` (for `s ≥ 1`). -/
def listChunks {α : Type} (s : Nat) (l : List α) : List (List α) :=
  listChunksF l.length s l

/-- `(t - t0).num_milliseconds() as u32`: the difference truncated to 32 bits. -/
def msSinceU32 (t0 t : Int) : Nat := ((t - t0) % (4294967296 : Int)).toNat

/-- Names of container entries written by `finalize`. -/
inductive EntryName where
  | tiles (id : Nat)
  | meta
  | snapshots (id : Nat)
  deriving DecidableEq

/-- The `Meta` value assembled by `archive_writer.rs` `finalize` (that file's
revision of the struct: no total count, and a `last_pixel_placed_at_seconds_since_epoch`
field hard-coded to 0). -/
structure WriterMeta where
  canvas_size_changes : List CanvasSizeChange
  chunk_descs : List ChunkDescription
  last_pixel_placed_at_seconds_since_epoch : Nat
  color_id_to_tuple : List (Nat × Color)
  deriving DecidableEq

/-- Container entry contents. Tile chunk blobs are byte-exact; the `meta` entry
and the PNG snapshot entries are serialized by external collaborators (bincode /
the image crate), so their payloads are modelled structurally / opaquely. -/
inductive EntryContent where
  | bytes (bs : List Nat)
  | metaBlob (m : WriterMeta)
  | snapshotBlob
  deriving DecidableEq

/-- The distinct panics `finalize` can hit, in source order:
`tile_placements.first().unwrap()` on an empty buffer; `chunks(0)` when
`len / NUM_CHUNKS == 0`; `tiles.last().unwrap()` on an empty group (never
reachable); `canvas.put_pixel` with a coordinate outside the synthetic
2000×2000 snapshot canvas; a snapshot palette lookup miss (never reachable for
writers built via `add_tile`). -/
inductive FinalizePanic where
  | emptyTilePlacements
  | zeroChunkSize
  | emptyChunkGroup
  | pixelOutOfBounds
  | missingPaletteEntry
  deriving DecidableEq

/-- Result of a successful `finalize`: the container entries written, plus the
assembled `Meta` (also reachable through the `meta` entry). -/
structure FinalizeOutput where
  entries : List (EntryName × EntryContent)
  meta : WriterMeta
  deriving DecidableEq

/-- Palette inversion at `finalize`: `BTreeMap::from_iter(color_tuple_to_id.iter().map(|(k,v)| (v,k)))`.
Later bindings for a duplicated index overwrite earlier ones; which color wins
depends on BTreeMap iteration order, which no theorem below observes. -/
def invertPalette (m : List (Color × Nat)) : List (Nat × Color) :=
  m.foldl (fun acc p => assocInsert acc p.2 p.1) []

/-- Chunk emission loop of `finalize`: for each group, encode all records with
timestamps re-expressed relative to the global first timestamp, write the blob
to `tiles/<i>`, and record a `ChunkDescription` (`up_to` from the group's last
record, `tiles.last().unwrap()`). -/
def buildChunksAux (t0 : Int) :
    Nat → List (List IntermediateTilePlacement) →
    Except FinalizePanic (List (EntryName × EntryContent) × List ChunkDescription)
  | _, [] => .ok ([], [])
  | i, g :: rest =>
    match g.getLast? with
    | none => .error .emptyChunkGroup
    | some lastTile =>
      let blob := (g.map (fun tile =>
        StoredTilePlacement.encode
          ⟨tile.x, tile.y, tile.color_index, msSinceU32 t0 tile.placed_at⟩)).flatten
      let desc : ChunkDescription := ⟨i, msSinceU32 t0 lastTile.placed_at, g.length⟩
      match buildChunksAux t0 (i + 1) rest with
      | .ok (es, ds) => .ok ((.tiles i, .bytes blob) :: es, desc :: ds)
      | .error e => .error e

/-- Snapshot generation pass: replays the sorted placements cumulatively onto a
canvas sized by `get_largest_canvas_size` (here the synthetic 2000×2000 entry)
and writes one PNG per chunk. `put_pixel` panics when a coordinate is outside
the canvas; the palette lookup `color_id_to_tuple[&tile.color_index]` panics
when absent. The PNG bytes themselves come from the external image crate and
are modelled opaquely. -/
def snapshotCheck (palette : List (Nat × Color)) (width height : Nat)
    (tiles : List IntermediateTilePlacement) (descs : List ChunkDescription) :
    Except FinalizePanic (List (EntryName × EntryContent)) :=
  if tiles.all (fun t => decide (t.x < width) && decide (t.y < height)) then
    if tiles.all (fun t => (assocLookup palette t.color_index).isSome) then
      .ok (descs.map (fun d => (.snapshots d.id, .snapshotBlob)))
    else .error .missingPaletteEntry
  else .error .pixelOutOfBounds

/-- Mirrors `PlacedArchiveWriter::finalize`, in source order: sort; take the
first placement (`unwrap` — panics on an empty buffer); compute
`num_of_tiles_in_chunk = len() as u32 / NUM_CHUNKS` (the `as u32` cast wraps at
2^32); partition with `chunks` (which panics on a zero group size); emit the
tile blobs and chunk descriptions; assemble and write `Meta`; generate the
snapshot images; finalize the container. A panic yields `.error` and no
container output. -/
def PlacedArchiveWriter.finalize (w : PlacedArchiveWriter) :
    Except FinalizePanic FinalizeOutput :=
  let sorted := sortTiles w.tile_placements
  match sorted with
  | [] => .error .emptyTilePlacements
  | first :: _ =>
    let t0 := first.placed_at
    let num_of_tiles_in_chunk := (w.tile_placements.length % 4294967296) / NUM_CHUNKS
    if num_of_tiles_in_chunk = 0 then .error .zeroChunkSize
    else
      match buildChunksAux t0 0 (listChunks num_of_tiles_in_chunk sorted) with
      | .error e => .error e
      | .ok (tileEntries, chunk_descs) =>
        let canvas_size_changes : List CanvasSizeChange := [⟨2000, 2000, 0⟩]
        let palette := invertPalette w.color_tuple_to_id
        let meta : WriterMeta :=
          { canvas_size_changes := canvas_size_changes,
            chunk_descs := chunk_descs,
            last_pixel_placed_at_seconds_since_epoch := 0,
            color_id_to_tuple := palette }
        match snapshotCheck palette 2000 2000 sorted chunk_descs with
        | .error e => .error e
        | .ok snapEntries =>
          .ok { entries := tileEntries ++ [(.meta, .metaBlob meta)] ++ snapEntries,
                meta := meta }

/-! ## Archive reader (`archive_reader.rs`) -/

/-- Outcome of fetching a named entry from the `mla` container: present with
its bytes, absent (`Ok(None)`), or failing with a container-level error. -/
inductive ChunkFetch where
  | present (bs : List Nat)
  | absent
  | unfetchable
  deriving DecidableEq

/-- Mirrors `errors.rs` `NextTileChunkError`. -/
inductive NextTileChunkError where
  | outOfChunks
  | missingChunkFile
  | couldNotFetchChunkFile
  deriving DecidableEq

/-- The `std::io::Error` values the reader constructs (`Seek` impl only; the
`Read` impl never returns an error). -/
inductive ReaderIOError where
  | couldNotLoadChunk
  | couldNotSeekWithinChunk
  deriving DecidableEq

/-- Mirrors `PlacedArchiveReader`: the container's `tiles/<i>` entries (the
`mla` collaborator, fixed for the reader's lifetime), the decoded `meta`, and
the mutable cursor state: `current_tile_chunk_id` and
`current_tile_chunk_data: Option<Cursor<Vec<u8>>>` modelled as the buffered
bytes plus the cursor position. -/
structure PlacedArchiveReader where
  tiles : List ChunkFetch
  meta : Meta
  current_tile_chunk_id : Option Nat
  current_tile_chunk_data : Option (List Nat × Nat)
  deriving DecidableEq

/-- `mla.get_file("tiles/<i>")`: entries beyond the container are absent. -/
def PlacedArchiveReader.getFile (st : PlacedArchiveReader) (i : Nat) : ChunkFetch :=
  (st.tiles.get? i).getD .absent

/-- Mirrors `load_chunk_by_id`: fetch `tiles/<id>`, buffer it fully, cursor at
0. Does not set `current_tile_chunk_id` (callers do). -/
def PlacedArchiveReader.loadChunkById (st : PlacedArchiveReader) (id : Nat) :
    Except NextTileChunkError PlacedArchiveReader :=
  match st.getFile id with
  | .present bs => .ok { st with current_tile_chunk_data := some (bs, 0) }
  | .absent => .error .missingChunkFile
  | .unfetchable => .error .couldNotFetchChunkFile

/-- The id `get_next_chunk_data` will try next: `current + 1`, or `0` initially. -/
def PlacedArchiveReader.nextChunkId (st : PlacedArchiveReader) : Nat :=
  match st.current_tile_chunk_id with
  | some id => id + 1
  | none => 0

/-- Mirrors `get_next_chunk_data`: advance to the next chunk id, failing with
`OutOfChunks` past `chunk_descs.len()`, and otherwise loading the chunk and
recording its id. On error the reader state is unchanged. -/
def PlacedArchiveReader.getNextChunkData (st : PlacedArchiveReader) :
    Except NextTileChunkError PlacedArchiveReader :=
  let tile_chunk_id := st.nextChunkId
  if st.meta.chunk_descs.length ≤ tile_chunk_id then .error .outOfChunks
  else
    match st.loadChunkById tile_chunk_id with
    | .ok st' => .ok { st' with current_tile_chunk_id := some tile_chunk_id }
    | .error e => .error e

/-- Recursion core of the `Read` impl. The source recurses (`self.read(buf)`)
after each successful `get_next_chunk_data`; that recursion is bounded by the
chunk count because each success strictly increases `current_tile_chunk_id`,
so the fuel used by `PlacedArchiveReader.read` below is never exhausted.
Note the `Err(_) => Ok(0)` arms: every chunk-access failure is reported as
zero bytes read, never as an `io::Error`. -/
def PlacedArchiveReader.readAux :
    Nat → PlacedArchiveReader → Nat → Except ReaderIOError (List Nat) × PlacedArchiveReader
  | 0, st, _ => (.ok [], st)
  | fuel + 1, st, n =>
    match st.current_tile_chunk_data with
    | some (buf, p) =>
      if p = buf.length then
        match st.getNextChunkData with
        | .ok st' => PlacedArchiveReader.readAux fuel st' n
        | .error _ => (.ok [], st)
      else
        let bs := (buf.drop p).take n
        (.ok bs, { st with current_tile_chunk_data := some (buf, p + bs.length) })
    | none =>
      match st.getNextChunkData with
      | .ok st' => PlacedArchiveReader.readAux fuel st' n
      | .error _ => (.ok [], st)

/-- Mirrors the `Read` impl: one `read` call with a caller buffer of length `n`. -/
def PlacedArchiveReader.read (st : PlacedArchiveReader) (n : Nat) :
    Except ReaderIOError (List Nat) × PlacedArchiveReader :=
  PlacedArchiveReader.readAux (st.meta.chunk_descs.length + 2) st n

/-- `Read::read_exact` as used by `bincode::decode_from_std_read`: repeatedly
`read` until `n` bytes are gathered; a zero-byte read is an unexpected EOF
(`none`, i.e. a decode error). Each loop iteration gathers at least one byte,
so fuel `n + 1` in `readExact` below always suffices. -/
def PlacedArchiveReader.readExactAux :
    Nat → PlacedArchiveReader → Nat → Option (List Nat × PlacedArchiveReader)
  | _, st, 0 => some ([], st)
  | 0, _, _ + 1 => none
  | fuel + 1, st, n + 1 =>
    match st.read (n + 1) with
    | (.ok [], _) => none
    | (.ok bs, st') =>
      match PlacedArchiveReader.readExactAux fuel st' (n + 1 - bs.length) with
      | some (rest, st'') => some (bs ++ rest, st'')
      | none => none
    | (.error _, _) => none

def PlacedArchiveReader.readExact (st : PlacedArchiveReader) (n : Nat) :
    Option (List Nat × PlacedArchiveReader) :=
  PlacedArchiveReader.readExactAux (n + 1) st n

/-- Mirrors the `Iterator` impl: decode one `StoredTilePlacement` from the byte
stream, then resolve `color_index` through `meta.color_id_to_tuple`. The source
`unwrap`s the palette lookup (a panic on a missing index); the panic is
modelled as `none`. -/
def PlacedArchiveReader.next (st : PlacedArchiveReader) :
    Option (DecodedTilePlacement × PlacedArchiveReader) :=
  match st.readExact StoredTilePlacement.encodedSize with
  | none => none
  | some (bs, st') =>
    match decodeStored bs with
    | none => none
    | some r =>
      match assocLookup st.meta.color_id_to_tuple r.color_index with
      | none => none
      | some c => some (⟨r.x, r.y, r.ms_since_epoch, c⟩, st')

/-- The `k`-th item of a full sequential iteration (`next` applied `k + 1`
times from the given state). -/
def PlacedArchiveReader.nthRecord (st : PlacedArchiveReader) : Nat → Option DecodedTilePlacement
  | 0 => (st.next).map Prod.fst
  | k + 1 =>
    match st.next with
    | some (_, st') => st'.nthRecord k
    | none => none

/-- The chunk-location scan of the `Seek` impl: walk the `ChunkDescription`s
accumulating tile counts until `current_tile_offset + num_tiles >= pos_in_tiles`. -/
def findChunkAux : List ChunkDescription → Nat → Nat → Nat → Nat × Nat
  | [], _, cid, coff => (cid, coff)
  | d :: rest, k, cid, coff =>
    if k ≤ coff + d.num_tiles then (cid, coff)
    else findChunkAux rest k (cid + 1) (coff + d.num_tiles)

/-- Mirrors the `SeekFrom::Start(pos)` arm of the `Seek` impl: locate the chunk
containing record `pos / encoded_size()`, load it (an error becomes the
`io::Error` "Could not load chunk"), and seek the chunk cursor to
`pos % encoded_size() + (pos_in_tiles - current_tile_offset) * encoded_size()`
(a plain `Cursor` seek, which always succeeds). Returns `Ok(pos)`. -/
def PlacedArchiveReader.seekFromStart (st : PlacedArchiveReader) (pos : Nat) :
    Except ReaderIOError Nat × PlacedArchiveReader :=
  let pos_in_tiles := pos / StoredTilePlacement.encodedSize
  let found := findChunkAux st.meta.chunk_descs pos_in_tiles 0 0
  match st.loadChunkById found.1 with
  | .error _ => (.error .couldNotLoadChunk, st)
  | .ok st' =>
    let st'' := { st' with current_tile_chunk_id := some found.1 }
    let remaining_pos := pos % StoredTilePlacement.encodedSize +
      (pos_in_tiles - found.2) * StoredTilePlacement.encodedSize
    match st''.current_tile_chunk_data with
    | some (buf, _) =>
      (.ok pos, { st'' with current_tile_chunk_data := some (buf, remaining_pos) })
    | none => (.error .couldNotSeekWithinChunk, st'')

/-- Bytes of the container entry for chunk `i` (empty for absent/unfetchable;
under `wfReader` every chunk is present). -/
def tileBytes : ChunkFetch → List Nat
  | .present bs => bs
  | _ => []

/-- Number of tiles in chunks `0..c` according to the metadata. -/
def cumTiles (descs : List ChunkDescription) (c : Nat) : Nat :=
  ((descs.take c).map (fun d => d.num_tiles)).sum

/-- Total record count advertised by the metadata. -/
def totalTiles (descs : List ChunkDescription) : Nat :=
  (descs.map (fun d => d.num_tiles)).sum

/-- The logical byte stream: the concatenation of all chunk blobs. -/
def PlacedArchiveReader.streamBytes (st : PlacedArchiveReader) : List Nat :=
  (st.tiles.map tileBytes).flatten

/-- The 9 bytes of record `g` of the logical stream. -/
def PlacedArchiveReader.recordBytes (st : PlacedArchiveReader) (g : Nat) : List Nat :=
  (st.streamBytes.drop (9 * g)).take 9

/-- Record `g` of the logical stream, decoded. -/
def PlacedArchiveReader.storedAt (st : PlacedArchiveReader) (g : Nat) :
    Option StoredTilePlacement :=
  decodeStored (st.recordBytes g)

/-- Record `g` of the logical stream, decoded and palette-resolved — the value
sequential iteration must produce as its `g`-th item. -/
def PlacedArchiveReader.decodedAt (st : PlacedArchiveReader) (g : Nat) :
    Option DecodedTilePlacement :=
  match st.storedAt g with
  | none => none
  | some r =>
    match assocLookup st.meta.color_id_to_tuple r.color_index with
    | none => none
    | some c => some ⟨r.x, r.y, r.ms_since_epoch, c⟩

/-- Chunk `i` is present and its blob length matches `9 * num_tiles`. -/
def chunkOkB (st : PlacedArchiveReader) (i : Nat) : Bool :=
  match st.tiles.get? i, st.meta.chunk_descs.get? i with
  | some (.present bs), some d => bs.length = 9 * d.num_tiles
  | _, _ => false

/-- Well-formed archive: one present container entry per chunk description,
each of exactly `9 * num_tiles` bytes (what the writer produces). -/
def wfReader (st : PlacedArchiveReader) : Prop :=
  st.tiles.length = st.meta.chunk_descs.length ∧
  ∀ i, i < st.meta.chunk_descs.length → chunkOkB st i = true

/-- Abstraction relation: the reader's cursor state sits at global record index
`g` — either the fresh state (`g = 0`), or chunk `c` is buffered with the
cursor at byte `9 * j`, `j ≤ num_tiles c`, and `g = cumTiles c + j`. -/
def AtIdx (st : PlacedArchiveReader) (g : Nat) : Prop :=
  (st.current_tile_chunk_id = none ∧ st.current_tile_chunk_data = none ∧ g = 0) ∨
  (∃ c j bs d, st.current_tile_chunk_id = some c ∧
    st.meta.chunk_descs.get? c = some d ∧
    st.tiles.get? c = some (.present bs) ∧
    st.current_tile_chunk_data = some (bs, 9 * j) ∧
    j ≤ d.num_tiles ∧ g = cumTiles st.meta.chunk_descs c + j)

/-! ## Resolution engine (`player/src/texture_update_by_coords.rs`)

The Rust driver is generic over any `Read + Seek` byte stream; slices are
always whole records (the staging-buffer size is a multiple of
`encoded_size() * NUM_OF_TILES_PER_WORKGROUP` bytes), so the stream is
modelled at record granularity: a list of records plus a cursor, exactly the
`Cursor<Vec<u8>>` the engine's tests drive it with. The slice byte budget
`copy_size` (derived from the float rate estimate and the wgpu device limits,
both external) is abstracted as `cap` records per pull. -/

/-- Mirrors `PartialUpdateResult`. -/
inductive PartialUpdateResult where
  | reachedEndOfInput
  | updatedUpToMs (max_ms_since_epoch_used : Nat) (did_update_up_to_requested_ms : Bool)
  deriving DecidableEq

/-- Mirrors `NUM_OF_TILES_PER_WORKGROUP`. -/
def NUM_OF_TILES_PER_WORKGROUP : Nat := 4

/-- The no-op sentinel record used for padding (`color_index = 255`). -/
def sentinelTile : StoredTilePlacement := ⟨0, 0, 255, 0⟩

/-- Mirrors the padding loop of `write_next_input_chunk`: append sentinel
records until the record count is a multiple of `NUM_OF_TILES_PER_WORKGROUP`. -/
def padToWorkgroup (slice : List StoredTilePlacement) : List StoredTilePlacement :=
  slice ++ List.replicate ((4 - slice.length % 4) % 4) sentinelTile

/-- Mirrors `ComputedBounds` (the three data fields read back from the GPU
bounds buffer; the echoed `requested_up_to_ms_since_epoch` is omitted). -/
structure ComputedBounds where
  max_ms_since_epoch_seen : Nat
  max_ms_since_epoch_used : Nat
  max_index_in_chunk_used : Nat
  deriving DecidableEq

/-- Modelled from the spec: the bounds accumulation of the
`calculate_final_tiles` compute pass (the WGSL shader is not part of the
sources here). Per the spec, over the slice in order: sentinel records
(`color_index = 0xFF`) are recognized and skipped; `max_ms_seen` ranges over
all (non-sentinel) records; a record qualifies when
`ms_since_epoch <= target`; `max_ms_used` and `max_index_used` range over
qualifying records. The driver initializes all three accumulators to 0. -/
def computeBoundsAux (target : Nat) :
    Nat → ComputedBounds → List StoredTilePlacement → ComputedBounds
  | _, b, [] => b
  | i, b, r :: rest =>
    let b' :=
      if r.color_index = 255 then b
      else
        { max_ms_since_epoch_seen := max b.max_ms_since_epoch_seen r.ms_since_epoch,
          max_ms_since_epoch_used :=
            if r.ms_since_epoch ≤ target then max b.max_ms_since_epoch_used r.ms_since_epoch
            else b.max_ms_since_epoch_used,
          max_index_in_chunk_used :=
            if r.ms_since_epoch ≤ target then max b.max_index_in_chunk_used i
            else b.max_index_in_chunk_used }
    computeBoundsAux target (i + 1) b' rest

def computeBounds (target : Nat) (recs : List StoredTilePlacement) : ComputedBounds :=
  computeBoundsAux target 0 ⟨0, 0, 0⟩ recs

/-- Modelled from the spec: pass 1 of the shader — the per-coordinate scratch
map from coordinate to the index of the last qualifying record in the slice. -/
def scratchPass (target : Nat) (recs : List StoredTilePlacement) :
    List ((Nat × Nat) × Nat) :=
  (recs.enum.foldl
    (fun acc p =>
      if p.2.color_index = 255 then acc
      else if p.2.ms_since_epoch ≤ target then assocInsert acc (p.2.x, p.2.y) p.1
      else acc)
    [])

/-- The engine's 256-entry palette table: `color_id_to_tuple.into_values()`
padded with `[0,0,0,0]` to 256 entries, indexed by `color_index` (built by
`TextureUpdateByCoords::new` in the source). -/
def paletteTable (meta : Meta) (i : Nat) : Color :=
  ((meta.color_id_to_tuple.map Prod.snd) ++
    List.replicate (256 - meta.color_id_to_tuple.length) (0, 0, 0, 0)).getD i (0, 0, 0, 0)

/-- Modelled from the spec: pass 2 of the shader — write the palette-resolved
color of each scratch entry's record into the canvas (an association list from
coordinate to RGBA). -/
def applyScratch (meta : Meta) (recs : List StoredTilePlacement)
    (canvas : List ((Nat × Nat) × Color)) (scratch : List ((Nat × Nat) × Nat)) :
    List ((Nat × Nat) × Color) :=
  scratch.foldl
    (fun cv p =>
      assocInsert cv p.1 (paletteTable meta (recs.getD p.2 sentinelTile).color_index))
    canvas

/-- Engine state: the metadata, the underlying record stream with its cursor
(the `Read + Seek` reader), and the persistent canvas (the texture). -/
structure TextureUpdateByCoords where
  meta : Meta
  records : List StoredTilePlacement
  pos : Nat
  canvas : List ((Nat × Nat) × Color)
  deriving DecidableEq

/-- Mirrors `partial_update` (one bounded pull + resolve), at record
granularity with slice capacity `cap` records (`cap ≥ 1` whenever the Rust
code runs at all: a zero-byte staging allocation would already panic in
`NonZeroU64::new(..).unwrap()`):
read up to `cap` records; zero records is `ReachedEndOfInput` (nothing else
happens); otherwise pad, run the two passes, and read back the bounds;
finally, if `bounds.max_index_in_chunk_used != num_of_tiles - 1`, seek the
reader backward by `(num_of_tiles - max_index_in_chunk_used) * encoded_size()`
bytes, i.e. `num_of_tiles - max_index_in_chunk_used` whole records. -/
def TextureUpdateByCoords.stepUpdate (target cap : Nat) (st : TextureUpdateByCoords) :
    PartialUpdateResult × TextureUpdateByCoords :=
  let slice := (st.records.drop st.pos).take cap
  let num_of_tiles := slice.length
  if num_of_tiles = 0 then (.reachedEndOfInput, st)
  else
    let padded := padToWorkgroup slice
    let bounds := computeBounds target padded
    let canvas' := applyScratch st.meta padded st.canvas (scratchPass target padded)
    let posAfterRead := st.pos + num_of_tiles
    let pos' :=
      if bounds.max_index_in_chunk_used ≠ num_of_tiles - 1 then
        posAfterRead - (num_of_tiles - bounds.max_index_in_chunk_used)
      else posAfterRead
    (.updatedUpToMs bounds.max_ms_since_epoch_used
        (decide (target ≤ bounds.max_ms_since_epoch_seen)),
     { st with pos := pos', canvas := canvas' })

/-- Mirrors `update`: loop `partial_update` until it reports end of input or
`did_update_up_to_requested_ms`. The Rust loop has no fuel; `none` models a
non-terminating run (every theorem below supplies sufficient fuel). -/
def TextureUpdateByCoords.update :
    Nat → Nat → Nat → TextureUpdateByCoords → Option (PartialUpdateResult × TextureUpdateByCoords)
  | 0, _, _, _ => none
  | fuel + 1, target, cap, st =>
    match st.stepUpdate target cap with
    | (.reachedEndOfInput, st') => some (.reachedEndOfInput, st')
    | (.updatedUpToMs used sat, st') =>
      if sat then some (.updatedUpToMs used sat, st')
      else TextureUpdateByCoords.update fuel target cap st'

/-- True when an update outcome is `UpdatedUpToMs` with
`did_update_up_to_requested_ms = true` and a reported `max_ms_since_epoch_used`
strictly below `target`. -/
def resultUsedLt (target : Nat) : PartialUpdateResult → Bool
  | .updatedUpToMs used sat => sat && decide (used < target)
  | .reachedEndOfInput => false

/-! ## Helper lemmas: lists, association lists, sorting, chunking -/

theorem getLast?_append_singleton {α : Type} (l : List α) (a : α) :
    (l ++ [a]).getLast? = some a := by
  induction l with
  | nil => rfl
  | cons b rest ih =>
    rw [List.cons_append, List.getLast?_cons]
    simp [ih]

theorem assocLookup_mem {α β : Type} [DecidableEq α] {m : List (α × β)} {a : α} {b : β}
    (h : assocLookup m a = some b) : (a, b) ∈ m := by
  induction m with
  | nil => simp [assocLookup] at h
  | cons p rest ih =>
    obtain ⟨k, v⟩ := p
    by_cases hk : k = a
    · subst hk
      simp [assocLookup] at h
      subst h
      exact List.mem_cons_self _ _
    · simp [assocLookup, hk] at h
      exact List.mem_cons_of_mem _ (ih h)

theorem assocLookup_assocInsert_self {α β : Type} [DecidableEq α]
    (m : List (α × β)) (a : α) (b : β) :
    assocLookup (assocInsert m a b) a = some b := by
  induction m with
  | nil => simp [assocInsert, assocLookup]
  | cons p rest ih =>
    obtain ⟨k, v⟩ := p
    by_cases hk : k = a
    · simp [assocInsert, hk, assocLookup]
    · simp [assocInsert, hk, assocLookup, ih]

theorem assocLookup_assocInsert_isSome {α β : Type} [DecidableEq α]
    (m : List (α × β)) (a a' : α) (b : β)
    (h : (assocLookup m a').isSome = true) :
    (assocLookup (assocInsert m a b) a').isSome = true := by
  induction m with
  | nil => simp [assocLookup] at h
  | cons p rest ih =>
    obtain ⟨k, v⟩ := p
    by_cases hk : k = a
    · subst hk
      by_cases hka : k = a'
      · simp [assocInsert, assocLookup, hka]
      · simp [assocLookup, hka] at h
        simp [assocInsert, assocLookup, hka, h]
    · by_cases hka : k = a'
      · subst hka
        simp [assocInsert, hk, assocLookup]
      · simp [assocLookup, hka] at h
        simp [assocInsert, hk, assocLookup, hka, ih h]

theorem invertPalette_aux_isSome {α β : Type} [DecidableEq α] [DecidableEq β]
    (m : List (α × β)) (acc : List (β × α)) (i : β)
    (h : (assocLookup acc i).isSome = true ∨ ∃ c, (c, i) ∈ m) :
    (assocLookup (m.foldl (fun acc p => assocInsert acc p.2 p.1) acc) i).isSome = true := by
  induction m generalizing acc with
  | nil =>
    rcases h with h | ⟨c, hc⟩
    · simpa using h
    · simp at hc
  | cons p rest ih =>
    obtain ⟨c0, i0⟩ := p
    rw [List.foldl_cons]
    apply ih
    rcases h with h | ⟨c, hc⟩
    · exact Or.inl (assocLookup_assocInsert_isSome _ _ _ _ h)
    · rcases List.mem_cons.mp hc with heq | hmem
      · left
        obtain ⟨h1, h2⟩ := Prod.mk.injEq .. ▸ heq
        cases heq
        simp [assocLookup_assocInsert_self]
      · exact Or.inr ⟨c, hmem⟩

theorem invertPalette_isSome {m : List (Color × Nat)} {c : Color} {i : Nat}
    (h : (c, i) ∈ m) : (assocLookup (invertPalette m) i).isSome = true := by
  exact invertPalette_aux_isSome m [] i (Or.inr ⟨c, h⟩)

theorem insertTile_length (p : IntermediateTilePlacement)
    (l : List IntermediateTilePlacement) : (insertTile p l).length = l.length + 1 := by
  induction l with
  | nil => rfl
  | cons q rest ih =>
    unfold insertTile
    by_cases h : p.placed_at ≤ q.placed_at <;> simp [h, ih]

theorem sortTiles_length (l : List IntermediateTilePlacement) :
    (sortTiles l).length = l.length := by
  induction l with
  | nil => rfl
  | cons p rest ih => simp [sortTiles, insertTile_length, ih]

theorem insertTile_mem {a p : IntermediateTilePlacement} {l : List IntermediateTilePlacement}
    (h : a ∈ insertTile p l) : a = p ∨ a ∈ l := by
  induction l with
  | nil => simpa [insertTile] using h
  | cons q rest ih =>
    unfold insertTile at h
    by_cases hle : p.placed_at ≤ q.placed_at
    · simp [hle] at h
      rcases h with h | h | h
      · exact Or.inl h
      · exact Or.inr (by simp [h])
      · exact Or.inr (List.mem_cons_of_mem _ h)
    · simp [hle] at h
      rcases h with h | h
      · exact Or.inr (by simp [h])
      · rcases ih h with h' | h'
        · exact Or.inl h'
        · exact Or.inr (List.mem_cons_of_mem _ h')

theorem sortTiles_mem {a : IntermediateTilePlacement} {l : List IntermediateTilePlacement}
    (h : a ∈ sortTiles l) : a ∈ l := by
  induction l generalizing a with
  | nil => simp [sortTiles] at h
  | cons p rest ih =>
    rcases insertTile_mem h with h' | h'
    · simp [h']
    · exact List.mem_cons_of_mem _ (ih h')

theorem listChunksF_ne_nil {α : Type} (f s : Nat) (l : List α) :
    ∀ g ∈ listChunksF f s l, g ≠ [] := by
  induction f generalizing l with
  | zero => intro g hg; simp [listChunksF] at hg
  | succ f ih =>
    intro g hg
    cases l with
    | nil => simp [listChunksF] at hg
    | cons a rest =>
      rw [listChunksF] at hg
      rcases List.mem_cons.mp hg with h | h
      · subst h; simp
      · exact ih _ g h

theorem listChunksF_nil {α : Type} (f s : Nat) : listChunksF f s ([] : List α) = [] := by
  cases f <;> rfl

theorem listChunksF_map_length {α : Type} :
    ∀ (f s : Nat) (l : List α), 0 < s → l.length ≤ f → l ≠ [] →
    (listChunksF f s l).map List.length =
      List.replicate ((l.length + s - 1) / s - 1) s ++
        [l.length - s * ((l.length + s - 1) / s - 1)] := by
  intro f
  induction f with
  | zero =>
    intro s l hs hf hne
    cases l with
    | nil => exact absurd rfl hne
    | cons a rest => simp at hf
  | succ f ih =>
    intro s l hs hf hne
    cases l with
    | nil => exact absurd rfl hne
    | cons a rest =>
      rw [listChunksF]
      simp only [List.length_cons] at hf ⊢
      by_cases hsmall : rest.length + 1 ≤ s
      · have hdrop : rest.drop (s - 1) = [] := by
          apply List.drop_eq_nil_of_le
          omega
        have hq : (rest.length + 1 + s - 1) / s = 1 := by
          apply Nat.div_eq_of_lt_le <;> omega
        rw [hdrop, listChunksF_nil, hq]
        simp [List.length_take]
        omega
      · have hrest : s - 1 ≤ rest.length := by omega
        have hdroplen : (rest.drop (s - 1)).length = rest.length + 1 - s := by
          simp [List.length_drop]
          omega
        have hdropne : rest.drop (s - 1) ≠ [] := by
          intro hcon
          rw [hcon] at hdroplen
          simp at hdroplen
          omega
        have hdropf : (rest.drop (s - 1)).length ≤ f := by
          rw [hdroplen]
          omega
        have hIH := ih s (rest.drop (s - 1)) hs hdropf hdropne
        rw [hdroplen] at hIH
        have e1 : rest.length + 1 - s + s - 1 = rest.length := by omega
        rw [e1] at hIH
        have e3 : (rest.length + 1 + s - 1) / s = rest.length / s + 1 := by
          have e2 : rest.length + 1 + s - 1 = rest.length + s := by omega
          rw [e2, Nat.add_div_right _ hs]
        have hhead : (a :: rest.take (s - 1)).length = s := by
          simp [List.length_take]
          omega
        rw [List.map_cons, hIH, e3, hhead]
        obtain ⟨q', hq'⟩ : ∃ q', rest.length / s = q' + 1 := by
          refine ⟨rest.length / s - 1, ?_⟩
          have : 1 ≤ rest.length / s := by
            rw [Nat.one_le_div_iff hs]
            omega
          omega
        have hqle : rest.length / s * s ≤ rest.length := Nat.div_mul_le_self _ _
        rw [hq'] at hqle
        rw [hq']
        simp only [Nat.add_sub_cancel, List.replicate_succ, List.cons_append, Nat.mul_succ]
        have hsq : s * q' + s ≤ rest.length := by
          calc s * q' + s = (q' + 1) * s := by ring
          _ ≤ rest.length := hqle
        have hAB : rest.length + 1 - s - s * q' = rest.length + 1 - (s * q' + s) := by
          generalize s * q' = X at hsq ⊢
          omega
        rw [hAB]

theorem buildChunksAux_ok (t0 : Int) :
    ∀ (groups : List (List IntermediateTilePlacement)) (i : Nat),
    (∀ g ∈ groups, g ≠ []) →
    ∃ es ds, buildChunksAux t0 i groups = .ok (es, ds) ∧
      ds.map (fun d => d.num_tiles) = groups.map List.length := by
  intro groups
  induction groups with
  | nil => intro i _; exact ⟨[], [], rfl, rfl⟩
  | cons g rest ih =>
    intro i hne
    have hg : g ≠ [] := hne g (List.mem_cons_self _ _)
    have hlast : g.getLast?.isSome = true := by
      rw [List.getLast?_isSome]; exact hg
    obtain ⟨lastTile, hlt⟩ := Option.isSome_iff_exists.mp hlast
    obtain ⟨es, ds, hok, hmap⟩ := ih (i + 1) (fun g' hg' => hne g' (List.mem_cons_of_mem _ hg'))
    refine ⟨(.tiles i, .bytes ((g.map (fun tile =>
        StoredTilePlacement.encode
          ⟨tile.x, tile.y, tile.color_index, msSinceU32 t0 tile.placed_at⟩)).flatten)) :: es,
      (⟨i, msSinceU32 t0 lastTile.placed_at, g.length⟩ : ChunkDescription) :: ds, ?_, ?_⟩
    · simp only [buildChunksAux, hlt, hok]
    · simp [hmap]

theorem addTile_placements (w : PlacedArchiveWriter) (x y : Nat) (c : Color) (t : Int) :
    ∃ i, (w.addTile x y c t).tile_placements = w.tile_placements ++ [⟨x, y, t, i⟩] := by
  unfold PlacedArchiveWriter.addTile
  cases h : assocLookup w.color_tuple_to_id c <;> simp [h]

theorem addTile_placements_length (w : PlacedArchiveWriter) (x y : Nat) (c : Color) (t : Int) :
    (w.addTile x y c t).tile_placements.length = w.tile_placements.length + 1 := by
  obtain ⟨i, hi⟩ := addTile_placements w x y c t
  simp [hi]

theorem foldl_addTile_length (adds : List AddCall) :
    ∀ w : PlacedArchiveWriter,
    ((adds.foldl (fun w a => w.addTile a.x a.y a.color a.placed_at) w).tile_placements).length =
      w.tile_placements.length + adds.length := by
  induction adds with
  | nil => intro w; simp
  | cons a rest ih =>
    intro w
    rw [List.foldl_cons, ih, addTile_placements_length]
    simp
    omega

theorem mkWriter_placements_length (adds : List AddCall) :
    (mkWriter adds).tile_placements.length = adds.length := by
  unfold mkWriter
  rw [foldl_addTile_length]
  simp [PlacedArchiveWriter.new]

/-- Every placement's palette index is bound to some color in the writer's map. -/
def WriterInv (w : PlacedArchiveWriter) : Prop :=
  ∀ p ∈ w.tile_placements, ∃ c, (c, p.color_index) ∈ w.color_tuple_to_id

theorem addTile_map_mono {w : PlacedArchiveWriter} {x y : Nat} {c : Color} {t : Int}
    {c0 : Color} {i : Nat} (h : (c0, i) ∈ w.color_tuple_to_id) :
    (c0, i) ∈ (w.addTile x y c t).color_tuple_to_id := by
  unfold PlacedArchiveWriter.addTile
  cases hl : assocLookup w.color_tuple_to_id c <;> simp [hl, h]

theorem addTile_inv {w : PlacedArchiveWriter} (x y : Nat) (c : Color) (t : Int)
    (h : WriterInv w) : WriterInv (w.addTile x y c t) := by
  intro p hp
  unfold PlacedArchiveWriter.addTile at hp
  cases hl : assocLookup w.color_tuple_to_id c with
  | some i =>
    rw [hl] at hp
    simp at hp
    rcases hp with hp | hp
    · obtain ⟨c', hc'⟩ := h p hp
      exact ⟨c', addTile_map_mono hc'⟩
    · subst hp
      exact ⟨c, by simp [PlacedArchiveWriter.addTile, hl]; exact assocLookup_mem hl⟩
  | none =>
    rw [hl] at hp
    simp at hp
    rcases hp with hp | hp
    · obtain ⟨c', hc'⟩ := h p hp
      refine ⟨c', ?_⟩
      simp [PlacedArchiveWriter.addTile, hl, hc']
    · subst hp
      refine ⟨c, ?_⟩
      simp [PlacedArchiveWriter.addTile, hl]

theorem foldl_addTile_inv (adds : List AddCall) :
    ∀ w : PlacedArchiveWriter, WriterInv w →
    WriterInv (adds.foldl (fun w a => w.addTile a.x a.y a.color a.placed_at) w) := by
  induction adds with
  | nil => intro w h; exact h
  | cons a rest ih =>
    intro w h
    rw [List.foldl_cons]
    exact ih _ (addTile_inv _ _ _ _ h)

theorem mkWriter_inv (adds : List AddCall) : WriterInv (mkWriter adds) := by
  apply foldl_addTile_inv
  intro p hp
  simp [PlacedArchiveWriter.new] at hp

theorem foldl_addTile_coords (P : Nat → Nat → Prop) (adds : List AddCall) :
    ∀ w : PlacedArchiveWriter,
    (∀ a ∈ adds, P a.x a.y) →
    (∀ p ∈ w.tile_placements, P p.x p.y) →
    ∀ p ∈ (adds.foldl (fun w a => w.addTile a.x a.y a.color a.placed_at) w).tile_placements,
      P p.x p.y := by
  induction adds with
  | nil => intro w _ hw; exact hw
  | cons a rest ih =>
    intro w hadds hw
    rw [List.foldl_cons]
    apply ih
    · intro a' ha'; exact hadds a' (List.mem_cons_of_mem _ ha')
    · intro p hp
      obtain ⟨i, hi⟩ := addTile_placements w a.x a.y a.color a.placed_at
      rw [hi] at hp
      rcases List.mem_append.mp hp with hp | hp
      · exact hw p hp
      · simp at hp
        subst hp
        exact hadds a (List.mem_cons_self _ _)

theorem mkWriter_coords (P : Nat → Nat → Prop) (adds : List AddCall)
    (hadds : ∀ a ∈ adds, P a.x a.y) :
    ∀ p ∈ (mkWriter adds).tile_placements, P p.x p.y := by
  apply foldl_addTile_coords P adds _ hadds
  intro p hp
  simp [PlacedArchiveWriter.new] at hp

theorem finalize_mkWriter_spec (adds : List AddCall)
    (h64 : 64 ≤ adds.length) (h32 : adds.length < 4294967296)
    (hxy : ∀ a ∈ adds, a.x < 2000 ∧ a.y < 2000) :
    ∃ out, (mkWriter adds).finalize = .ok out ∧
      out.meta.chunk_descs.map (fun d => d.num_tiles) =
        (listChunks (adds.length / 64)
          (sortTiles (mkWriter adds).tile_placements)).map List.length := by
  have hlen : (mkWriter adds).tile_placements.length = adds.length :=
    mkWriter_placements_length adds
  have hsortlen : (sortTiles (mkWriter adds).tile_placements).length = adds.length := by
    rw [sortTiles_length, hlen]
  cases hs : sortTiles (mkWriter adds).tile_placements with
  | nil =>
    rw [hs] at hsortlen
    simp at hsortlen
    omega
  | cons first rest =>
    have hnum : ((mkWriter adds).tile_placements.length % 4294967296) / NUM_CHUNKS =
        adds.length / 64 := by
      rw [hlen]
      unfold NUM_CHUNKS
      rw [Nat.mod_eq_of_lt h32]
    have hnumpos : 0 < adds.length / 64 :=
      (Nat.one_le_div_iff (by norm_num)).mpr h64
    obtain ⟨es, ds, hok, hmap⟩ := buildChunksAux_ok first.placed_at
      (listChunks (adds.length / 64) (first :: rest)) 0
      (fun g hg => listChunksF_ne_nil _ _ _ g hg)
    have hcoords : ∀ p ∈ (first :: rest), p.x < 2000 ∧ p.y < 2000 := by
      intro p hp
      rw [← hs] at hp
      exact mkWriter_coords (fun x y => x < 2000 ∧ y < 2000) adds hxy p (sortTiles_mem hp)
    have hpal : ∀ p ∈ (first :: rest),
        (assocLookup (invertPalette (mkWriter adds).color_tuple_to_id) p.color_index).isSome
          = true := by
      intro p hp
      rw [← hs] at hp
      obtain ⟨c, hc⟩ := mkWriter_inv adds p (sortTiles_mem hp)
      exact invertPalette_isSome hc
    have hsnap : snapshotCheck (invertPalette (mkWriter adds).color_tuple_to_id) 2000 2000
        (first :: rest) ds = .ok (ds.map (fun d => (.snapshots d.id, .snapshotBlob))) := by
      unfold snapshotCheck
      rw [if_pos, if_pos]
      · rw [List.all_eq_true]
        intro p hp
        exact hpal p hp
      · rw [List.all_eq_true]
        intro p hp
        obtain ⟨hx, hy⟩ := hcoords p hp
        simp [hx, hy]
    refine ⟨⟨es ++ [(EntryName.meta, EntryContent.metaBlob
        ⟨[⟨2000, 2000, 0⟩], ds, 0, invertPalette (mkWriter adds).color_tuple_to_id⟩)] ++
          ds.map (fun d => (EntryName.snapshots d.id, EntryContent.snapshotBlob)),
        ⟨[⟨2000, 2000, 0⟩], ds, 0, invertPalette (mkWriter adds).color_tuple_to_id⟩⟩, ?_, ?_⟩
    · unfold PlacedArchiveWriter.finalize
      simp only [hs, hnum]
      rw [if_neg (by omega : ¬ (adds.length / 64 = 0))]
      rw [hok]
      dsimp only
      rw [hsnap]
    · simp only [hs]
      exact hmap

/-! ## Claims about the writer (C2, C5, C9, C10) -/

/-- C9: with at least one but fewer than `NUM_CHUNKS = 64` buffered placements,
`finalize` panics: `len as u32 / NUM_CHUNKS` is 0 and `slice::chunks` requires
a non-zero chunk size; no archive is produced. -/
theorem c9_small_finalize_panics (w : PlacedArchiveWriter)
    (h1 : 0 < w.tile_placements.length) (h2 : w.tile_placements.length < 64) :
    w.finalize = .error .zeroChunkSize := by
  have hlen : (sortTiles w.tile_placements).length = w.tile_placements.length :=
    sortTiles_length _
  unfold PlacedArchiveWriter.finalize
  cases hs : sortTiles w.tile_placements with
  | nil =>
    rw [hs] at hlen
    simp at hlen
    omega
  | cons first rest =>
    have hz : w.tile_placements.length % 4294967296 / NUM_CHUNKS = 0 := by
      unfold NUM_CHUNKS
      omega
    simp only [hz, if_pos]

def sampleAdd : AddCall := ⟨1, 1, (0, 0, 0, 255), 5⟩

/-- Witness for C9 at a writer holding exactly one placement. -/
theorem c9_small_finalize_panics_witness :
    (0 < (mkWriter [sampleAdd]).tile_placements.length ∧
      (mkWriter [sampleAdd]).tile_placements.length < 64) ∧
    (mkWriter [sampleAdd]).finalize = .error .zeroChunkSize :=
  ⟨by decide, c9_small_finalize_panics (mkWriter [sampleAdd]) (by decide) (by decide)⟩

/-- C10: `add_tile` with a color absent from the palette map raises no error
and assigns it index `len() as u8`, i.e. the current number of distinct colors
reduced modulo 256 — so the n-th distinct color gets index `(n-1) % 256`, and
a 257th distinct color silently reuses index 0. -/
theorem c10_palette_index_wraparound (w : PlacedArchiveWriter) (x y : Nat) (c : Color)
    (t : Int) (h : assocLookup w.color_tuple_to_id c = none) :
    (w.addTile x y c t).tile_placements.getLast? =
      some ⟨x, y, t, w.color_tuple_to_id.length % 256⟩ ∧
    (w.addTile x y c t).color_tuple_to_id.length = w.color_tuple_to_id.length + 1 := by
  unfold PlacedArchiveWriter.addTile
  simp only [h]
  exact ⟨getLast?_append_singleton _ _, by simp⟩

/-- 256 distinct colors, registered in order. -/
def adds256Colors : List AddCall :=
  (List.range 256).map (fun i => ⟨0, 0, (i, 0, 0, 255), 0⟩)

set_option maxRecDepth 8000 in
/-- Witness for C10: after 256 distinct colors the palette map has 256 entries,
and a 257th distinct color is assigned `256 % 256 = 0`, aliasing the first. -/
theorem c10_palette_index_wraparound_witness :
    (assocLookup (mkWriter adds256Colors).color_tuple_to_id (999, 999, 999, 255) = none ∧
      (mkWriter adds256Colors).color_tuple_to_id.length = 256) ∧
    (((mkWriter adds256Colors).addTile 7 8 (999, 999, 999, 255) 9).tile_placements.getLast? =
        some ⟨7, 8, 9, (mkWriter adds256Colors).color_tuple_to_id.length % 256⟩ ∧
      ((mkWriter adds256Colors).addTile 7 8 (999, 999, 999, 255) 9).color_tuple_to_id.length =
        (mkWriter adds256Colors).color_tuple_to_id.length + 1) :=
  ⟨by decide,
   c10_palette_index_wraparound (mkWriter adds256Colors) 7 8 (999, 999, 999, 255) 9 (by decide)⟩

/-- Whether a fallible computation succeeded. -/
def exceptOk {ε α : Type} : Except ε α → Bool
  | .ok _ => true
  | .error _ => false

deriving instance DecidableEq for Except

def sampleAdds64 : List AddCall :=
  (List.range 64).map (fun i => ⟨1, 1, (0, 0, 0, 255), (i : Int)⟩)

/-- Counterexample for C5: a writer holding exactly one placement (so
"at least one placement was added") still fails to finalize — the zero chunk
size panic — contradicting "finalize succeeds whenever at least one placement
was added". -/
theorem c5_counterexample :
    (mkWriter [sampleAdd]).tile_placements.length = 1 ∧
    (mkWriter [sampleAdd]).finalize = .error .zeroChunkSize := by
  constructor
  · decide
  · decide

/-- C5 (amended): finalize on a writer with no buffered placements fails
before any container write — but by panicking on
`tile_placements.first().unwrap()` (no `EmptyArchive` error exists in the
code); and at least one placement does not guarantee success: finalize
succeeds once at least `NUM_CHUNKS = 64` placements were added with
coordinates inside the synthetic 2000×2000 snapshot canvas. -/
theorem c5_finalize_precondition_amended :
    (∀ w : PlacedArchiveWriter, w.tile_placements = [] →
      w.finalize = .error .emptyTilePlacements) ∧
    (∀ adds : List AddCall, 64 ≤ adds.length → adds.length < 4294967296 →
      (∀ a ∈ adds, a.x < 2000 ∧ a.y < 2000) →
      exceptOk (mkWriter adds).finalize = true) := by
  constructor
  · intro w hw
    unfold PlacedArchiveWriter.finalize
    rw [hw]
    rfl
  · intro adds h64 h32 hxy
    obtain ⟨out, hout, _⟩ := finalize_mkWriter_spec adds h64 h32 hxy
    rw [hout]
    rfl

/-- Witness for C5's amended statement: the empty writer fails before I/O, and
a 64-placement writer finalizes successfully. -/
theorem c5_finalize_precondition_amended_witness :
    (PlacedArchiveWriter.new.finalize = .error .emptyTilePlacements) ∧
    ((64 ≤ sampleAdds64.length ∧ sampleAdds64.length < 4294967296 ∧
        (∀ a ∈ sampleAdds64, a.x < 2000 ∧ a.y < 2000)) ∧
      exceptOk (mkWriter sampleAdds64).finalize = true) :=
  ⟨c5_finalize_precondition_amended.1 PlacedArchiveWriter.new rfl,
   ⟨by decide,
    c5_finalize_precondition_amended.2 sampleAdds64 (by decide) (by decide) (by decide)⟩⟩

def sampleAdds65 : List AddCall :=
  (List.range 65).map (fun i => ⟨1, 1, (0, 0, 0, 255), (i : Int)⟩)

set_option maxRecDepth 8000 in
/-- Counterexample for C2: finalizing 65 buffered placements (`T = 65 ≥ 64`)
produces 65 chunks of one record each — not 64 groups with the final group
absorbing the remainder (`Rust slice::chunks` makes the last group shorter,
never longer, and yields `ceil(T / chunk_size)` groups). -/
theorem c2_counterexample :
    ((mkWriter sampleAdds65).finalize).map (fun out => out.meta.chunk_descs.length) =
      .ok 65 ∧ (65 : Nat) ≠ 64 := by
  constructor
  · decide
  · decide

/-- C2 (amended): for `T >= 64` buffered placements, finalize partitions the
sorted sequence into `ceil(T / s)` groups where `s = T / 64` (integer
division): every group has `s` records except the final one, which holds the
remainder `T - s * (ceil(T / s) - 1)` (at most `s`, never more). The group
count is exactly 64 only when 64 divides `T`. -/
theorem c2_chunk_partition_amended (adds : List AddCall)
    (h64 : 64 ≤ adds.length) (h32 : adds.length < 4294967296)
    (hxy : ∀ a ∈ adds, a.x < 2000 ∧ a.y < 2000) :
    ((mkWriter adds).finalize).map
        (fun out => out.meta.chunk_descs.map (fun d => d.num_tiles)) =
      .ok (List.replicate ((adds.length + adds.length / 64 - 1) / (adds.length / 64) - 1)
            (adds.length / 64) ++
          [adds.length - adds.length / 64 *
            ((adds.length + adds.length / 64 - 1) / (adds.length / 64) - 1)]) := by
  obtain ⟨out, hout, hshape⟩ := finalize_mkWriter_spec adds h64 h32 hxy
  rw [hout]
  have hsl : (sortTiles (mkWriter adds).tile_placements).length = adds.length := by
    rw [sortTiles_length, mkWriter_placements_length]
  have hnumpos : 0 < adds.length / 64 := (Nat.one_le_div_iff (by norm_num)).mpr h64
  have hne : sortTiles (mkWriter adds).tile_placements ≠ [] := by
    intro hcon
    rw [hcon] at hsl
    simp at hsl
    omega
  have hchunks := listChunksF_map_length (sortTiles (mkWriter adds).tile_placements).length
    (adds.length / 64) (sortTiles (mkWriter adds).tile_placements) hnumpos (Nat.le_refl _) hne
  rw [hsl] at hchunks
  simp only [Except.map]
  rw [hshape]
  unfold listChunks
  rw [hsl, hchunks]

/-- Witness for C2's amended statement at 65 placements: `s = 1`, 65 groups of
one record each. -/
theorem c2_chunk_partition_amended_witness :
    (64 ≤ sampleAdds65.length ∧ sampleAdds65.length < 4294967296 ∧
      (∀ a ∈ sampleAdds65, a.x < 2000 ∧ a.y < 2000)) ∧
    ((mkWriter sampleAdds65).finalize).map
        (fun out => out.meta.chunk_descs.map (fun d => d.num_tiles)) =
      .ok (List.replicate
            ((sampleAdds65.length + sampleAdds65.length / 64 - 1) /
              (sampleAdds65.length / 64) - 1) (sampleAdds65.length / 64) ++
          [sampleAdds65.length - sampleAdds65.length / 64 *
            ((sampleAdds65.length + sampleAdds65.length / 64 - 1) /
              (sampleAdds65.length / 64) - 1)]) :=
  ⟨by decide,
   c2_chunk_partition_amended sampleAdds65 (by decide) (by decide) (by decide)⟩

/-! ## Helper lemmas: the resolution engine's bounds accumulation -/

theorem computeBoundsAux_append (t : Nat) :
    ∀ (l1 l2 : List StoredTilePlacement) (i : Nat) (b : ComputedBounds),
    computeBoundsAux t i b (l1 ++ l2) =
      computeBoundsAux t (i + l1.length) (computeBoundsAux t i b l1) l2 := by
  intro l1
  induction l1 with
  | nil => intro l2 i b; simp [computeBoundsAux]
  | cons r rest ih =>
    intro l2 i b
    rw [List.cons_append, computeBoundsAux, computeBoundsAux, ih]
    simp
    ring_nf

theorem computeBoundsAux_sentinels (t : Nat) :
    ∀ (k i : Nat) (b : ComputedBounds),
    computeBoundsAux t i b (List.replicate k sentinelTile) = b := by
  intro k
  induction k with
  | zero => intro i b; rfl
  | succ k ih =>
    intro i b
    rw [List.replicate_succ, computeBoundsAux]
    simp [sentinelTile]
    exact ih _ _

theorem computeBounds_pad (t : Nat) (sl : List StoredTilePlacement) :
    computeBounds t (padToWorkgroup sl) = computeBounds t sl := by
  unfold computeBounds padToWorkgroup
  rw [computeBoundsAux_append, computeBoundsAux_sentinels]

theorem computeBoundsAux_idx_le (t : Nat) :
    ∀ (l : List StoredTilePlacement) (i : Nat) (b : ComputedBounds),
    (computeBoundsAux t i b l).max_index_in_chunk_used ≤
      max b.max_index_in_chunk_used (i + l.length - 1) := by
  intro l
  induction l with
  | nil => intro i b; simp [computeBoundsAux]
  | cons r rest ih =>
    intro i b
    rw [computeBoundsAux]
    have hstep : ∀ b' : ComputedBounds,
        b'.max_index_in_chunk_used ≤ max b.max_index_in_chunk_used i →
        (computeBoundsAux t (i + 1) b' rest).max_index_in_chunk_used ≤
          max b.max_index_in_chunk_used (i + (r :: rest).length - 1) := by
      intro b' hb'
      have := ih (i + 1) b'
      simp only [List.length_cons]
      omega
    by_cases hsent : r.color_index = 255
    · simp only [hsent, if_pos]
      apply hstep
      omega
    · rw [if_neg hsent]
      apply hstep
      by_cases hq : r.ms_since_epoch ≤ t <;> simp [hq]

theorem computeBoundsAux_seen_mono (t : Nat) :
    ∀ (l : List StoredTilePlacement) (i : Nat) (b : ComputedBounds),
    b.max_ms_since_epoch_seen ≤ (computeBoundsAux t i b l).max_ms_since_epoch_seen := by
  intro l
  induction l with
  | nil => intro i b; simp [computeBoundsAux]
  | cons r rest ih =>
    intro i b
    rw [computeBoundsAux]
    by_cases hsent : r.color_index = 255
    · simp only [hsent, if_pos]
      exact ih _ _
    · rw [if_neg hsent]
      have := ih (i + 1)
        { max_ms_since_epoch_seen := max b.max_ms_since_epoch_seen r.ms_since_epoch,
          max_ms_since_epoch_used :=
            if r.ms_since_epoch ≤ t then max b.max_ms_since_epoch_used r.ms_since_epoch
            else b.max_ms_since_epoch_used,
          max_index_in_chunk_used :=
            if r.ms_since_epoch ≤ t then max b.max_index_in_chunk_used i
            else b.max_index_in_chunk_used }
      simp at this
      omega

theorem computeBoundsAux_seen_ge (t : Nat) :
    ∀ (l : List StoredTilePlacement) (i : Nat) (b : ComputedBounds)
      (r : StoredTilePlacement), r ∈ l → r.color_index ≠ 255 →
    r.ms_since_epoch ≤ (computeBoundsAux t i b l).max_ms_since_epoch_seen := by
  intro l
  induction l with
  | nil => intro i b r hr; simp at hr
  | cons hd rest ih =>
    intro i b r hr hsent
    rcases List.mem_cons.mp hr with heq | hmem
    · subst heq
      rw [computeBoundsAux, if_neg hsent]
      have := computeBoundsAux_seen_mono t rest (i + 1)
        { max_ms_since_epoch_seen := max b.max_ms_since_epoch_seen r.ms_since_epoch,
          max_ms_since_epoch_used :=
            if r.ms_since_epoch ≤ t then max b.max_ms_since_epoch_used r.ms_since_epoch
            else b.max_ms_since_epoch_used,
          max_index_in_chunk_used :=
            if r.ms_since_epoch ≤ t then max b.max_index_in_chunk_used i
            else b.max_index_in_chunk_used }
      simp at this
      omega
    · rw [computeBoundsAux]
      by_cases hs : hd.color_index = 255
      · simp only [hs, if_pos]
        exact ih _ _ r hmem hsent
      · rw [if_neg hs]
        exact ih _ _ r hmem hsent

theorem computeBoundsAux_used_lt (t : Nat) :
    ∀ (l : List StoredTilePlacement) (i : Nat) (b : ComputedBounds),
    b.max_ms_since_epoch_used < t →
    (∀ r ∈ l, r.ms_since_epoch ≠ t) →
    (computeBoundsAux t i b l).max_ms_since_epoch_used < t := by
  intro l
  induction l with
  | nil => intro i b hb _; simpa [computeBoundsAux] using hb
  | cons r rest ih =>
    intro i b hb hne
    rw [computeBoundsAux]
    have hrne : r.ms_since_epoch ≠ t := hne r (List.mem_cons_self _ _)
    have hrest : ∀ r' ∈ rest, r'.ms_since_epoch ≠ t :=
      fun r' hr' => hne r' (List.mem_cons_of_mem _ hr')
    by_cases hsent : r.color_index = 255
    · simp only [hsent, if_pos]
      exact ih _ _ hb hrest
    · rw [if_neg hsent]
      apply ih _ _ _ hrest
      by_cases hq : r.ms_since_epoch ≤ t <;> simp [hq] <;> omega

theorem computeBoundsAux_idx_all (t : Nat) :
    ∀ (l : List StoredTilePlacement) (i : Nat) (b : ComputedBounds),
    l ≠ [] →
    (∀ r ∈ l, r.color_index ≠ 255 ∧ r.ms_since_epoch ≤ t) →
    (computeBoundsAux t i b l).max_index_in_chunk_used =
      max b.max_index_in_chunk_used (i + l.length - 1) := by
  intro l
  induction l with
  | nil => intro i b hne _; exact absurd rfl hne
  | cons r rest ih =>
    intro i b _ hall
    obtain ⟨hsent, hq⟩ := hall r (List.mem_cons_self _ _)
    rw [computeBoundsAux, if_neg hsent]
    simp only [if_pos hq]
    cases hrest : rest with
    | nil =>
      subst hrest
      simp [computeBoundsAux]
    | cons r2 rest2 =>
      rw [← hrest]
      have hrestne : rest ≠ [] := by rw [hrest]; simp
      have := ih (i + 1)
        { max_ms_since_epoch_seen := max b.max_ms_since_epoch_seen r.ms_since_epoch,
          max_ms_since_epoch_used := max b.max_ms_since_epoch_used r.ms_since_epoch,
          max_index_in_chunk_used := max b.max_index_in_chunk_used i }
        hrestne (fun r' hr' => hall r' (List.mem_cons_of_mem _ hr'))
      simp only [hq, if_pos] at this
      rw [this]
      have hlen : 1 ≤ rest.length := by rw [hrest]; simp
      simp only [List.length_cons]
      omega

/-! ## Claims about the resolution engine (C3, C6, C8) -/

/-- C3 (amended): when the slice is non-empty and the bounds read-back
`max_index_in_chunk_used` (`m`) differs from `n - 1`, the engine seeks the
reader backward by `(n - m) * encoded_size()` bytes — i.e. `n - m` whole
records, one more than the spec's `n - 1 - m`, so the final position is
`pos + m` (the highest used record is re-read on the next call); when the
last record of the slice qualified (`m = n - 1`) no seek happens and the
position is `pos + n`. -/
theorem c3_rewind_amended (target cap : Nat) (st : TextureUpdateByCoords)
    (h : 0 < ((st.records.drop st.pos).take cap).length) :
    (st.stepUpdate target cap).2.pos =
      (if (computeBounds target (padToWorkgroup ((st.records.drop st.pos).take cap))).max_index_in_chunk_used ≠
            ((st.records.drop st.pos).take cap).length - 1
       then st.pos +
         (computeBounds target (padToWorkgroup ((st.records.drop st.pos).take cap))).max_index_in_chunk_used
       else st.pos + ((st.records.drop st.pos).take cap).length) := by
  have hm : (computeBounds target (padToWorkgroup ((st.records.drop st.pos).take cap))).max_index_in_chunk_used ≤
      ((st.records.drop st.pos).take cap).length - 1 := by
    rw [computeBounds_pad]
    unfold computeBounds
    have h2 : (computeBoundsAux target 0 ⟨0, 0, 0⟩
        ((st.records.drop st.pos).take cap)).max_index_in_chunk_used ≤
        max 0 (((st.records.drop st.pos).take cap).length - 1) := by
      simpa using computeBoundsAux_idx_le target ((st.records.drop st.pos).take cap) 0 ⟨0, 0, 0⟩
    omega
  unfold TextureUpdateByCoords.stepUpdate
  rw [if_neg (by omega : ¬ ((st.records.drop st.pos).take cap).length = 0)]
  dsimp only
  by_cases hcond : (computeBounds target (padToWorkgroup ((st.records.drop st.pos).take cap))).max_index_in_chunk_used =
      ((st.records.drop st.pos).take cap).length - 1
  · rw [if_neg (by simpa using hcond), if_neg (by simpa using hcond)]
  · rw [if_pos hcond, if_pos hcond]
    omega

/-- A two-record engine: one record at `ms = 0`, one at `ms = 100`. -/
def c3Engine : TextureUpdateByCoords :=
  { meta := ⟨[⟨2, 2, 0⟩], 2, 100, [(0, (0, 0, 0, 255))], []⟩,
    records := [⟨0, 0, 0, 0⟩, ⟨1, 1, 0, 100⟩],
    pos := 0,
    canvas := [] }

/-- Counterexample for C3: with `target = 0` over the two-record slice, the
highest qualifying index is `m = 0 < n - 1 = 1`; the claim predicts a rewind
of `n - 1 - m = 1` record (final position `pos + m + 1 = 1`), but the code
rewinds `n - m = 2` records, landing at position 0. -/
theorem c3_counterexample :
    (computeBounds 0 (padToWorkgroup ((c3Engine.records.drop c3Engine.pos).take 2))).max_index_in_chunk_used <
      ((c3Engine.records.drop c3Engine.pos).take 2).length - 1 ∧
    (c3Engine.stepUpdate 0 2).2.pos ≠
      c3Engine.pos +
        (computeBounds 0 (padToWorkgroup ((c3Engine.records.drop c3Engine.pos).take 2))).max_index_in_chunk_used + 1 ∧
    (c3Engine.stepUpdate 0 2).2.pos = 0 := by
  refine ⟨by decide, by decide, by decide⟩

/-- Witness for C3's amended statement at the same two-record engine. -/
theorem c3_rewind_amended_witness :
    0 < ((c3Engine.records.drop c3Engine.pos).take 2).length ∧
    (c3Engine.stepUpdate 0 2).2.pos =
      (if (computeBounds 0 (padToWorkgroup ((c3Engine.records.drop c3Engine.pos).take 2))).max_index_in_chunk_used ≠
            ((c3Engine.records.drop c3Engine.pos).take 2).length - 1
       then c3Engine.pos +
         (computeBounds 0 (padToWorkgroup ((c3Engine.records.drop c3Engine.pos).take 2))).max_index_in_chunk_used
       else c3Engine.pos + ((c3Engine.records.drop c3Engine.pos).take 2).length) :=
  ⟨by decide, c3_rewind_amended 0 2 c3Engine (by decide)⟩

theorem stepUpdate_of_empty {st : TextureUpdateByCoords} {target cap : Nat}
    (h : (st.records.drop st.pos).take cap = []) :
    st.stepUpdate target cap = (.reachedEndOfInput, st) := by
  unfold TextureUpdateByCoords.stepUpdate
  rw [h]
  rfl

theorem stepUpdate_end_inv {st : TextureUpdateByCoords} {target cap : Nat}
    (h : (st.stepUpdate target cap).1 = .reachedEndOfInput) :
    (st.records.drop st.pos).take cap = [] ∧ (st.stepUpdate target cap).2 = st := by
  by_cases hempty : (st.records.drop st.pos).take cap = []
  · exact ⟨hempty, by rw [stepUpdate_of_empty hempty]⟩
  · exfalso
    unfold TextureUpdateByCoords.stepUpdate at h
    rw [if_neg (fun hc => hempty (List.length_eq_zero.mp hc))] at h
    simp at h

theorem update_end_drop :
    ∀ (f target cap : Nat) (st st1 : TextureUpdateByCoords), 0 < cap →
    TextureUpdateByCoords.update f target cap st = some (.reachedEndOfInput, st1) →
    st1.records.drop st1.pos = [] := by
  intro f
  induction f with
  | zero =>
    intro target cap st st1 hcap h
    simp [TextureUpdateByCoords.update] at h
  | succ f ih =>
    intro target cap st st1 hcap h
    rw [TextureUpdateByCoords.update] at h
    cases hstep : st.stepUpdate target cap with
    | mk res st' =>
      rw [hstep] at h
      cases res with
      | reachedEndOfInput =>
        simp at h
        obtain ⟨-, rfl⟩ := h
        have hinv := @stepUpdate_end_inv st target cap (by rw [hstep])
        rw [hstep] at hinv
        obtain ⟨hempty, hst⟩ := hinv
        simp at hst
        rw [hst]
        have hlen0 : st.records.length ≤ st.pos := by
          have hlc := congrArg List.length hempty
          simp only [List.length_take, List.length_drop, List.length_nil] at hlc
          omega
        exact List.drop_eq_nil_of_le hlen0
      | updatedUpToMs used sat =>
        by_cases hsat : sat = true
        · rw [hsat] at h
          simp at h
        · rw [eq_false_of_ne_true hsat] at h
          simp at h
          exact ih target cap st' st1 hcap h

/-- C8: once `update` (the advance loop) has returned `ReachedEndOfInput`,
every later call — with any target, any positive fuel, and any slice capacity
— reads zero further records from the stream, changes nothing (position and
canvas included), and returns `ReachedEndOfInput` again. -/
theorem c8_terminal_idempotence (f target cap f2 target2 cap2 : Nat)
    (st st1 : TextureUpdateByCoords) (hcap : 0 < cap) (hf2 : 0 < f2)
    (h : TextureUpdateByCoords.update f target cap st = some (.reachedEndOfInput, st1)) :
    TextureUpdateByCoords.update f2 target2 cap2 st1 = some (.reachedEndOfInput, st1) ∧
    (st1.records.drop st1.pos).take cap2 = [] := by
  have hdrop := update_end_drop f target cap st st1 hcap h
  have hempty : (st1.records.drop st1.pos).take cap2 = [] := by rw [hdrop]; simp
  refine ⟨?_, hempty⟩
  obtain ⟨f3, rfl⟩ : ∃ f3, f2 = f3 + 1 := ⟨f2 - 1, by omega⟩
  rw [TextureUpdateByCoords.update, stepUpdate_of_empty hempty]

/-- A one-record engine whose cursor already sits at the end of the stream. -/
def c8Engine : TextureUpdateByCoords :=
  { meta := ⟨[⟨2, 2, 0⟩], 1, 1, [(0, (0, 0, 0, 255))], []⟩,
    records := [⟨1, 1, 0, 1⟩],
    pos := 1,
    canvas := [((1, 1), (0, 0, 0, 255))] }

/-- Witness for C8: an exhausted engine stays exhausted under different
target, fuel and capacity. -/
theorem c8_terminal_idempotence_witness :
    TextureUpdateByCoords.update 1 5 4 c8Engine = some (.reachedEndOfInput, c8Engine) ∧
    (TextureUpdateByCoords.update 3 7 2 c8Engine = some (.reachedEndOfInput, c8Engine) ∧
      (c8Engine.records.drop c8Engine.pos).take 2 = []) :=
  ⟨by decide,
   c8_terminal_idempotence 1 5 4 3 7 2 c8Engine c8Engine (by decide) (by decide) (by decide)⟩

theorem mem_drop_of_le {α : Type} {l : List α} {a b : Nat} {x : α}
    (h : b ≤ a) (hx : x ∈ l.drop a) : x ∈ l.drop b := by
  have heq : l.drop a = (l.drop b).drop (a - b) := by
    rw [List.drop_drop]
    congr 1
    omega
  rw [heq] at hx
  exact List.drop_subset _ _ hx

theorem c6_advance_aux (target cap : Nat) (htarget : 0 < target) (hcap : 0 < cap) :
    ∀ (rem : Nat) (st : TextureUpdateByCoords),
    (∀ r ∈ st.records, r.color_index ≠ 255) →
    (∀ r ∈ st.records, r.ms_since_epoch ≠ target) →
    (∃ r ∈ st.records.drop st.pos, target < r.ms_since_epoch) →
    st.records.length - st.pos ≤ rem →
    (TextureUpdateByCoords.update (rem + 1) target cap st).map
      (fun p => resultUsedLt target p.1) = some true := by
  intro rem
  induction rem with
  | zero =>
    intro st _ _ hfut hrem
    obtain ⟨r, hr, _⟩ := hfut
    have hnil : st.records.drop st.pos = [] := List.drop_eq_nil_of_le (by omega)
    rw [hnil] at hr
    simp at hr
  | succ rem ih =>
    intro st hsent hne hfut hrem
    obtain ⟨rfut, hrfut, hrfutms⟩ := hfut
    have hdropne : st.records.drop st.pos ≠ [] := by
      intro hc; rw [hc] at hrfut; simp at hrfut
    have hdroplen : 0 < (st.records.drop st.pos).length := List.length_pos.mpr hdropne
    have hslen : 0 < ((st.records.drop st.pos).take cap).length := by
      rw [List.length_take]
      omega
    have hslsub : ∀ r ∈ (st.records.drop st.pos).take cap, r ∈ st.records := fun r hr =>
      List.drop_subset _ _ (List.take_subset _ _ hr)
    have hpadne : ∀ r ∈ padToWorkgroup ((st.records.drop st.pos).take cap),
        r.ms_since_epoch ≠ target := by
      intro r hr
      rcases List.mem_append.mp hr with h1 | h2
      · exact hne r (hslsub r h1)
      · rw [List.eq_of_mem_replicate h2]
        simp [sentinelTile]
        omega
    rw [TextureUpdateByCoords.update]
    unfold TextureUpdateByCoords.stepUpdate
    rw [if_neg (by omega : ¬ (((st.records.drop st.pos).take cap).length = 0))]
    dsimp only
    by_cases hsat : target ≤
        (computeBounds target (padToWorkgroup ((st.records.drop st.pos).take cap))).max_ms_since_epoch_seen
    · rw [if_pos (decide_eq_true hsat)]
      have husedlt : (computeBounds target
          (padToWorkgroup ((st.records.drop st.pos).take cap))).max_ms_since_epoch_used <
          target := by
        unfold computeBounds
        exact computeBoundsAux_used_lt target _ 0 ⟨0, 0, 0⟩ htarget hpadne
      simp [resultUsedLt, hsat, husedlt]
    · rw [if_neg (by simpa using hsat)]
      have hallq : ∀ r ∈ (st.records.drop st.pos).take cap,
          r.color_index ≠ 255 ∧ r.ms_since_epoch ≤ target := by
        intro r hr
        have hrsent : r.color_index ≠ 255 := hsent r (hslsub r hr)
        refine ⟨hrsent, ?_⟩
        have hge := computeBoundsAux_seen_ge target
          (padToWorkgroup ((st.records.drop st.pos).take cap)) 0 ⟨0, 0, 0⟩ r
          (List.mem_append_left _ hr) hrsent
        unfold computeBounds at hsat
        omega
      have hslne : (st.records.drop st.pos).take cap ≠ [] := by
        intro hc
        rw [hc] at hslen
        simp at hslen
      have hidx : (computeBounds target
          (padToWorkgroup ((st.records.drop st.pos).take cap))).max_index_in_chunk_used =
          ((st.records.drop st.pos).take cap).length - 1 := by
        rw [computeBounds_pad]
        unfold computeBounds
        rw [computeBoundsAux_idx_all target _ 0 ⟨0, 0, 0⟩ hslne hallq]
        simp
      rw [if_neg (by simp [hidx])]
      apply ih
      · exact hsent
      · exact hne
      · show ∃ r ∈ st.records.drop (st.pos + ((st.records.drop st.pos).take cap).length),
            target < r.ms_since_epoch
        refine ⟨rfut, ?_, hrfutms⟩
        have hsplit : rfut ∈ (st.records.drop st.pos).take cap ∨
            rfut ∈ (st.records.drop st.pos).drop cap := by
          rw [← List.mem_append, List.take_append_drop]
          exact hrfut
        rcases hsplit with hin | hin
        · exfalso
          have := (hallq rfut hin).2
          omega
        · rw [List.drop_drop] at hin
          exact mem_drop_of_le (by
            have : ((st.records.drop st.pos).take cap).length ≤ cap := by
              rw [List.length_take]; omega
            omega) hin
      · show st.records.length -
            (st.pos + ((st.records.drop st.pos).take cap).length) ≤ rem
        have hlt : ((st.records.drop st.pos).take cap).length ≤
            st.records.length - st.pos := by
          rw [List.length_take, List.length_drop]; omega
        omega

/-- An engine whose only record sits in the future of a `target_ms` of 0. -/
def c6CexEngine : TextureUpdateByCoords :=
  { meta := ⟨[⟨2, 2, 0⟩], 1, 5, [(0, (0, 0, 0, 255))], []⟩,
    records := [⟨1, 1, 0, 5⟩],
    pos := 0,
    canvas := [] }

/-- Counterexample for C6: with `target_ms = 0`, an archive holding no record
at exactly 0 but one at 5 makes `advance` return `satisfied = true` with
`max_ms_used = 0` (the accumulator's initial value) — which is not strictly
less than `target_ms`, contradicting the claim at this boundary input. -/
theorem c6_counterexample :
    (∀ r ∈ c6CexEngine.records, r.ms_since_epoch ≠ 0) ∧
    (∃ r ∈ c6CexEngine.records, 0 < r.ms_since_epoch) ∧
    (TextureUpdateByCoords.update 2 0 4 c6CexEngine).map (fun p => p.1) =
      some (.updatedUpToMs 0 true) ∧
    ¬ ((0 : Nat) < 0) := by
  refine ⟨by decide, by decide, by decide, by decide⟩

/-- C6 (amended): for an `advance` from the start of the stream with
`target_ms ≥ 1`, over an archive of real (non-sentinel-colored) records none
of which is stamped exactly `target_ms` but at least one of which is stamped
later, the loop returns `UpdatedUpTo` with `satisfied = true` (because
`satisfied` is `max_ms_seen >= target_ms` over all records seen) while the
reported `max_ms_used` stays strictly below `target_ms`. (For `target_ms = 0`
the reported value is the initialization value 0, not strictly less.) -/
theorem c6_hole_handling_amended (target cap : Nat) (st : TextureUpdateByCoords)
    (htarget : 0 < target) (hcap : 0 < cap) (hpos : st.pos = 0)
    (hsent : ∀ r ∈ st.records, r.color_index ≠ 255)
    (hne : ∀ r ∈ st.records, r.ms_since_epoch ≠ target)
    (hfut : ∃ r ∈ st.records, target < r.ms_since_epoch) :
    (TextureUpdateByCoords.update (st.records.length + 1) target cap st).map
      (fun p => resultUsedLt target p.1) = some true := by
  apply c6_advance_aux target cap htarget hcap st.records.length st hsent hne
  · rw [hpos]
    simpa using hfut
  · omega

/-- An archive with records only at odd timestamps 1 and 3, as in the spec's
hole-handling example. -/
def c6Engine : TextureUpdateByCoords :=
  { meta := ⟨[⟨4, 4, 0⟩], 2, 3, [(0, (0, 0, 0, 255))], []⟩,
    records := [⟨1, 1, 0, 1⟩, ⟨3, 3, 0, 3⟩],
    pos := 0,
    canvas := [] }

/-- Witness for C6's amended statement: `advance(2, ...)` over records at
ms 1 and 3 is satisfied with `max_ms_used = 1 < 2`. -/
theorem c6_hole_handling_amended_witness :
    ((0 : Nat) < 2 ∧ (0 : Nat) < 4 ∧ c6Engine.pos = 0 ∧
      (∀ r ∈ c6Engine.records, r.color_index ≠ 255) ∧
      (∀ r ∈ c6Engine.records, r.ms_since_epoch ≠ 2) ∧
      (∃ r ∈ c6Engine.records, 2 < r.ms_since_epoch)) ∧
    (TextureUpdateByCoords.update (c6Engine.records.length + 1) 2 4 c6Engine).map
      (fun p => resultUsedLt 2 p.1) = some true :=
  ⟨⟨by decide, by decide, rfl, by decide, by decide, by decide⟩,
   c6_hole_handling_amended 2 4 c6Engine (by decide) (by decide) rfl
     (by decide) (by decide) (by decide)⟩

/-! ## Claims about the reader's sequential read (C4) -/

/-- Whether the reader is at a point where `read` must fetch a new chunk: no
chunk buffered, or the buffered chunk's cursor sits at its end. -/
def PlacedArchiveReader.atChunkEnd (st : PlacedArchiveReader) : Bool :=
  match st.current_tile_chunk_data with
  | none => true
  | some (buf, p) => decide (p = buf.length)

theorem getNextChunkData_out {st : PlacedArchiveReader}
    (h : st.meta.chunk_descs.length ≤ st.nextChunkId) :
    st.getNextChunkData = .error .outOfChunks := by
  unfold PlacedArchiveReader.getNextChunkData
  rw [if_pos h]

theorem getNextChunkData_absent {st : PlacedArchiveReader}
    (h1 : st.nextChunkId < st.meta.chunk_descs.length)
    (h2 : st.getFile st.nextChunkId = .absent) :
    st.getNextChunkData = .error .missingChunkFile := by
  unfold PlacedArchiveReader.getNextChunkData PlacedArchiveReader.loadChunkById
  rw [if_neg (by omega), h2]

theorem getNextChunkData_unfetchable {st : PlacedArchiveReader}
    (h1 : st.nextChunkId < st.meta.chunk_descs.length)
    (h2 : st.getFile st.nextChunkId = .unfetchable) :
    st.getNextChunkData = .error .couldNotFetchChunkFile := by
  unfold PlacedArchiveReader.getNextChunkData PlacedArchiveReader.loadChunkById
  rw [if_neg (by omega), h2]

theorem readAux_isOk :
    ∀ (fuel : Nat) (st : PlacedArchiveReader) (n : Nat),
    exceptOk (PlacedArchiveReader.readAux fuel st n).1 = true := by
  intro fuel
  induction fuel with
  | zero => intro st n; rfl
  | succ fuel ih =>
    intro st n
    rw [PlacedArchiveReader.readAux]
    cases hdata : st.current_tile_chunk_data with
    | none =>
      cases hnext : st.getNextChunkData with
      | ok st' => exact ih st' n
      | error e => rfl
    | some pair =>
      obtain ⟨buf, p⟩ := pair
      dsimp only
      by_cases hp : p = buf.length
      · rw [if_pos hp]
        cases hnext : st.getNextChunkData with
        | ok st' => exact ih st' n
        | error e => rfl
      · rw [if_neg hp]
        rfl

theorem readAux_boundary_err {st : PlacedArchiveReader} {e : NextTileChunkError}
    (hend : st.atChunkEnd = true) (herr : st.getNextChunkData = .error e) :
    ∀ (fuel n : Nat), PlacedArchiveReader.readAux (fuel + 1) st n = (.ok [], st) := by
  intro fuel n
  rw [PlacedArchiveReader.readAux]
  unfold PlacedArchiveReader.atChunkEnd at hend
  cases hdata : st.current_tile_chunk_data with
  | none => rw [herr]
  | some pair =>
    obtain ⟨buf, p⟩ := pair
    rw [hdata] at hend
    simp at hend
    dsimp only
    rw [if_pos hend, herr]

/-- C4 (amended): `read` never returns an `io::Error` at all. It reports zero
bytes read (end-of-stream) when the next chunk id is `>= chunk_count` — and
ALSO when the entry `tiles/<id>` for an in-range id is absent or unfetchable:
the `Read` impl's `Err(_) => Ok(0)` arms swallow `MissingChunkFile` and
`CouldNotFetchChunkFile`, making a broken container indistinguishable from a
completed stream; only the internal `get_next_chunk_data` distinguishes them. -/
theorem c4_read_end_of_stream_amended (st : PlacedArchiveReader) (n : Nat) :
    (exceptOk (st.read n).1 = true) ∧
    (st.atChunkEnd = true →
      ((st.meta.chunk_descs.length ≤ st.nextChunkId → st.read n = (.ok [], st)) ∧
       (st.nextChunkId < st.meta.chunk_descs.length →
         st.getFile st.nextChunkId = .absent → st.read n = (.ok [], st)) ∧
       (st.nextChunkId < st.meta.chunk_descs.length →
         st.getFile st.nextChunkId = .unfetchable → st.read n = (.ok [], st)))) := by
  refine ⟨readAux_isOk _ st n, fun hend => ⟨?_, ?_, ?_⟩⟩
  · intro hout
    exact readAux_boundary_err hend (getNextChunkData_out hout) _ n
  · intro h1 h2
    exact readAux_boundary_err hend (getNextChunkData_absent h1 h2) _ n
  · intro h1 h2
    exact readAux_boundary_err hend (getNextChunkData_unfetchable h1 h2) _ n

/-- A container advertising one chunk of one tile whose `tiles/0` entry is
absent. -/
def c4Reader : PlacedArchiveReader :=
  { tiles := [],
    meta := ⟨[⟨2, 2, 0⟩], 1, 0, [(0, (0, 0, 0, 255))], [⟨0, 0, 1⟩]⟩,
    current_tile_chunk_id := none,
    current_tile_chunk_data := none }

/-- Counterexample for C4: the next chunk id (0) is in range but its container
entry is absent, yet `read` reports `Ok` with zero bytes — end-of-stream, not
a `MissingChunkFile` failure as claimed. -/
theorem c4_counterexample :
    c4Reader.nextChunkId < c4Reader.meta.chunk_descs.length ∧
    c4Reader.getFile c4Reader.nextChunkId = .absent ∧
    c4Reader.read 9 = (.ok [], c4Reader) := by
  refine ⟨by decide, by decide, by decide⟩

/-- Witness for C4's amended statement at the same broken container. -/
theorem c4_read_end_of_stream_amended_witness :
    (c4Reader.atChunkEnd = true ∧
      c4Reader.nextChunkId < c4Reader.meta.chunk_descs.length ∧
      c4Reader.getFile c4Reader.nextChunkId = .absent) ∧
    (exceptOk (c4Reader.read 9).1 = true ∧ c4Reader.read 9 = (.ok [], c4Reader)) :=
  ⟨⟨by decide, by decide, by decide⟩,
   (c4_read_end_of_stream_amended c4Reader 9).1,
   ((c4_read_end_of_stream_amended c4Reader 9).2 (by decide)).2.1 (by decide) (by decide)⟩

/-! ## Helper lemmas: stream arithmetic for the reader (towards C1) -/

theorem chunkOk_extract {st : PlacedArchiveReader} {c : Nat} (hwf : wfReader st)
    (hc : c < st.meta.chunk_descs.length) :
    ∃ bs d, st.tiles.get? c = some (.present bs) ∧
      st.meta.chunk_descs.get? c = some d ∧ bs.length = 9 * d.num_tiles := by
  have h := hwf.2 c hc
  unfold chunkOkB at h
  split at h
  · next bs d h1 h2 =>
    exact ⟨bs, d, h1, h2, by simpa using h⟩
  · simp at h

theorem cumTiles_succ {descs : List ChunkDescription} {c : Nat} {d : ChunkDescription}
    (h : descs.get? c = some d) :
    cumTiles descs (c + 1) = cumTiles descs c + d.num_tiles := by
  unfold cumTiles
  rw [List.take_succ]
  have : descs[c]? = some d := by
    rw [← List.get?_eq_getElem?]
    exact h
  rw [this]
  simp

theorem cumTiles_length (descs : List ChunkDescription) :
    cumTiles descs descs.length = totalTiles descs := by
  unfold cumTiles totalTiles
  rw [List.take_length]

theorem cumTiles_of_le {descs : List ChunkDescription} {c : Nat}
    (h : descs.length ≤ c) : cumTiles descs c = totalTiles descs := by
  unfold cumTiles totalTiles
  rw [List.take_of_length_le h]

theorem chunkIdx_lt_of_cum_lt {descs : List ChunkDescription} {c : Nat}
    (h : cumTiles descs c < totalTiles descs) : c < descs.length := by
  by_contra hc
  rw [cumTiles_of_le (by omega)] at h
  omega

theorem bytesBeforeChunk {st : PlacedArchiveReader} (hwf : wfReader st) :
    ∀ c, c ≤ st.meta.chunk_descs.length →
    (((st.tiles.take c).map tileBytes).flatten).length = 9 * cumTiles st.meta.chunk_descs c := by
  intro c
  induction c with
  | zero => intro _; simp [cumTiles]
  | succ c ih =>
    intro hc
    obtain ⟨bs, d, ht, hd, hlen⟩ := chunkOk_extract (c := c) hwf (by omega)
    rw [List.take_succ]
    have htg : st.tiles[c]? = some (.present bs) := by
      rw [← List.get?_eq_getElem?]; exact ht
    rw [htg]
    rw [List.map_append, List.flatten_append]
    simp only [List.length_append]
    rw [ih (by omega), cumTiles_succ hd]
    simp [tileBytes, hlen]
    ring

theorem streamBytes_length {st : PlacedArchiveReader} (hwf : wfReader st) :
    st.streamBytes.length = 9 * totalTiles st.meta.chunk_descs := by
  unfold PlacedArchiveReader.streamBytes
  have h1 := bytesBeforeChunk hwf st.meta.chunk_descs.length (Nat.le_refl _)
  have htl : st.tiles.take st.meta.chunk_descs.length = st.tiles := by
    rw [← hwf.1]
    exact List.take_length _
  rw [htl] at h1
  rw [h1, cumTiles_length]

theorem recordBytes_spec {st : PlacedArchiveReader} {c j : Nat} {bs : List Nat}
    {d : ChunkDescription} (hwf : wfReader st)
    (hd : st.meta.chunk_descs.get? c = some d)
    (ht : st.tiles.get? c = some (.present bs))
    (hj : j < d.num_tiles) :
    st.recordBytes (cumTiles st.meta.chunk_descs c + j) = (bs.drop (9 * j)).take 9 ∧
    ((bs.drop (9 * j)).take 9).length = 9 := by
  obtain ⟨hclt, hget⟩ := List.get?_eq_some.mp ht
  have hblen : bs.length = 9 * d.num_tiles := by
    obtain ⟨bs', d', ht', hd', hlen'⟩ := chunkOk_extract hwf
      (by rw [← hwf.1]; exact hclt)
    rw [ht] at ht'
    rw [hd] at hd'
    simp at ht' hd'
    rw [← ht', ← hd'] at hlen'
    exact hlen'
  have hdlen : ((bs.drop (9 * j)).take 9).length = 9 := by
    rw [List.length_take, List.length_drop, hblen]
    omega
  refine ⟨?_, hdlen⟩
  unfold PlacedArchiveReader.recordBytes
  have hsplit : st.streamBytes =
      ((st.tiles.take c).map tileBytes).flatten ++
        (bs ++ ((st.tiles.drop (c + 1)).map tileBytes).flatten) := by
    unfold PlacedArchiveReader.streamBytes
    conv_lhs => rw [← List.take_append_drop c st.tiles]
    rw [List.map_append, List.flatten_append]
    congr 1
    rw [List.drop_eq_getElem_cons hclt]
    have : st.tiles[c] = ChunkFetch.present bs := by
      have := List.get?_eq_some.mp ht
      obtain ⟨h1, h2⟩ := this
      simpa using h2
    rw [this]
    simp [tileBytes]
  rw [hsplit]
  have hpre : (((st.tiles.take c).map tileBytes).flatten).length =
      9 * cumTiles st.meta.chunk_descs c :=
    bytesBeforeChunk hwf c (by rw [← hwf.1]; omega)
  have e1 : 9 * (cumTiles st.meta.chunk_descs c + j) =
      (((st.tiles.take c).map tileBytes).flatten).length + 9 * j := by
    rw [hpre]; ring
  rw [e1, ← List.drop_drop, List.drop_left]
  rw [List.drop_append_of_le_length (by omega)]
  rw [List.take_append_of_le_length (by rw [List.length_drop, hblen]; omega)]

theorem wf_update {st st2 : PlacedArchiveReader} (h : wfReader st)
    (h1 : st2.tiles = st.tiles) (h2 : st2.meta = st.meta) : wfReader st2 := by
  constructor
  · rw [h1, h2]; exact h.1
  · intro i hi
    rw [h2] at hi
    have := h.2 i hi
    unfold chunkOkB at this ⊢
    rw [h1, h2]
    exact this

theorem chunkOk_len {st : PlacedArchiveReader} {c : Nat} {bs : List Nat}
    {d : ChunkDescription} (hwf : wfReader st)
    (hd : st.meta.chunk_descs.get? c = some d)
    (ht : st.tiles.get? c = some (.present bs)) :
    bs.length = 9 * d.num_tiles := by
  obtain ⟨hclt, _⟩ := List.get?_eq_some.mp hd
  obtain ⟨bs', d', ht', hd', hlen'⟩ := chunkOk_extract (c := c) hwf hclt
  rw [ht] at ht'
  rw [hd] at hd'
  simp at ht' hd'
  rw [← ht', ← hd'] at hlen'
  exact hlen'

theorem recordBytes_length {st : PlacedArchiveReader} {g : Nat} (hwf : wfReader st)
    (hg : g < totalTiles st.meta.chunk_descs) :
    (st.recordBytes g).length = 9 := by
  unfold PlacedArchiveReader.recordBytes
  rw [List.length_take, List.length_drop, streamBytes_length hwf]
  omega

theorem getNextChunkData_at {st : PlacedArchiveReader} {c : Nat} {bs2 : List Nat}
    (hid : st.current_tile_chunk_id = some c)
    (hc1 : c + 1 < st.meta.chunk_descs.length)
    (ht2 : st.tiles.get? (c + 1) = some (.present bs2)) :
    st.getNextChunkData = .ok ⟨st.tiles, st.meta, some (c + 1), some (bs2, 0)⟩ := by
  unfold PlacedArchiveReader.getNextChunkData PlacedArchiveReader.nextChunkId
  rw [hid]
  dsimp only
  rw [if_neg (by omega)]
  unfold PlacedArchiveReader.loadChunkById PlacedArchiveReader.getFile
  rw [ht2]
  rfl

theorem getNextChunkData_fresh {st : PlacedArchiveReader} {bs0 : List Nat}
    (hid : st.current_tile_chunk_id = none)
    (hc : 0 < st.meta.chunk_descs.length)
    (ht0 : st.tiles.get? 0 = some (.present bs0)) :
    st.getNextChunkData = .ok ⟨st.tiles, st.meta, some 0, some (bs0, 0)⟩ := by
  unfold PlacedArchiveReader.getNextChunkData PlacedArchiveReader.nextChunkId
  rw [hid]
  dsimp only
  rw [if_neg (by omega)]
  unfold PlacedArchiveReader.loadChunkById PlacedArchiveReader.getFile
  rw [ht0]
  rfl

theorem readAuxAt :
    ∀ (fuel : Nat) (st : PlacedArchiveReader) (c j : Nat) (bs : List Nat)
      (d : ChunkDescription),
    wfReader st →
    st.meta.chunk_descs.length - c < fuel →
    st.current_tile_chunk_id = some c →
    st.current_tile_chunk_data = some (bs, 9 * j) →
    st.meta.chunk_descs.get? c = some d →
    st.tiles.get? c = some (.present bs) →
    j ≤ d.num_tiles →
    cumTiles st.meta.chunk_descs c + j < totalTiles st.meta.chunk_descs →
    ∃ st2,
      PlacedArchiveReader.readAux fuel st 9 =
        (.ok (st.recordBytes (cumTiles st.meta.chunk_descs c + j)), st2) ∧
      st2.tiles = st.tiles ∧ st2.meta = st.meta ∧
      AtIdx st2 (cumTiles st.meta.chunk_descs c + j + 1) := by
  intro fuel
  induction fuel with
  | zero =>
    intro st c j bs d _ hfuel _ _ _ _ _ _
    omega
  | succ fuel ih =>
    intro st c j bs d hwf hfuel hid hdata hd ht hj hg
    have hblen : bs.length = 9 * d.num_tiles := chunkOk_len hwf hd ht
    rw [PlacedArchiveReader.readAux, hdata]
    dsimp only
    by_cases hjend : j = d.num_tiles
    · -- cursor at the end of chunk c: roll over to the next chunk
      have hpeq : 9 * j = bs.length := by rw [hblen, hjend]
      rw [if_pos hpeq]
      have hcum1 : cumTiles st.meta.chunk_descs (c + 1) =
          cumTiles st.meta.chunk_descs c + d.num_tiles := cumTiles_succ hd
      have hc1 : c + 1 < st.meta.chunk_descs.length := by
        apply chunkIdx_lt_of_cum_lt
        rw [hcum1]
        omega
      obtain ⟨bs2, d2, ht2, hd2, hlen2⟩ := chunkOk_extract (c := c + 1) hwf hc1
      rw [getNextChunkData_at hid hc1 ht2]
      dsimp only
      have hg1 : cumTiles st.meta.chunk_descs (c + 1) + 0 <
          totalTiles st.meta.chunk_descs := by
        rw [hcum1]
        omega
      obtain ⟨st2, heq, htiles, hmeta, hAt⟩ :=
        ih ⟨st.tiles, st.meta, some (c + 1), some (bs2, 0)⟩
          (c + 1) 0 bs2 d2 (wf_update hwf rfl rfl)
          (by show st.meta.chunk_descs.length - (c + 1) < fuel; omega) rfl
          (by show some (bs2, 0) = some (bs2, 9 * 0); rfl)
          hd2 ht2 (Nat.zero_le _) hg1
      refine ⟨st2, ?_, htiles, hmeta, ?_⟩
      · rw [heq]
        show (Except.ok (st.recordBytes (cumTiles st.meta.chunk_descs (c + 1) + 0)), st2) =
          (Except.ok (st.recordBytes (cumTiles st.meta.chunk_descs c + j)), st2)
        have hgeq : cumTiles st.meta.chunk_descs (c + 1) + 0 =
            cumTiles st.meta.chunk_descs c + j := by omega
        rw [hgeq]
      · have hAt2 : AtIdx st2 (cumTiles st.meta.chunk_descs (c + 1) + 0 + 1) := hAt
        have hgeq : cumTiles st.meta.chunk_descs (c + 1) + 0 + 1 =
            cumTiles st.meta.chunk_descs c + j + 1 := by omega
        rw [hgeq] at hAt2
        exact hAt2
    · -- at least one whole record remains in chunk c
      have hjlt : j < d.num_tiles := lt_of_le_of_ne hj hjend
      obtain ⟨hrb, hrblen⟩ := recordBytes_spec hwf hd ht hjlt
      rw [if_neg (by rw [hblen]; omega)]
      have hposeq : 9 * j + ((bs.drop (9 * j)).take 9).length = 9 * (j + 1) := by
        rw [hrblen]
        ring
      refine ⟨⟨st.tiles, st.meta, st.current_tile_chunk_id,
          some (bs, 9 * j + ((bs.drop (9 * j)).take 9).length)⟩, ?_, rfl, rfl, ?_⟩
      · rw [hrb]
      · refine Or.inr ⟨c, j + 1, bs, d, hid, hd, ht, ?_, by omega, ?_⟩
        · show some (bs, 9 * j + ((bs.drop (9 * j)).take 9).length) = some (bs, 9 * (j + 1))
          rw [hposeq]
        · show cumTiles st.meta.chunk_descs c + j + 1 =
            cumTiles st.meta.chunk_descs c + (j + 1)
          omega

theorem totalTiles_pos_count {descs : List ChunkDescription}
    (h : 0 < totalTiles descs) : 0 < descs.length := by
  rcases hd : descs with _ | ⟨d0, rest⟩
  · rw [hd] at h
    simp [totalTiles] at h
  · simp

theorem readAux_at_start (fuel : Nat) (st : PlacedArchiveReader) (hwf : wfReader st)
    (hid : st.current_tile_chunk_id = none)
    (hdata : st.current_tile_chunk_data = none)
    (hfuel : st.meta.chunk_descs.length + 1 < fuel)
    (hT : 0 < totalTiles st.meta.chunk_descs) :
    ∃ st2,
      PlacedArchiveReader.readAux fuel st 9 = (.ok (st.recordBytes 0), st2) ∧
      st2.tiles = st.tiles ∧ st2.meta = st.meta ∧ AtIdx st2 1 := by
  obtain ⟨f, rfl⟩ : ∃ f, fuel = f + 1 := ⟨fuel - 1, by omega⟩
  have hcount : 0 < st.meta.chunk_descs.length := totalTiles_pos_count hT
  obtain ⟨bs0, d0, ht0, hd0, hlen0⟩ := chunkOk_extract (c := 0) hwf hcount
  rw [PlacedArchiveReader.readAux, hdata]
  dsimp only
  rw [getNextChunkData_fresh hid hcount ht0]
  dsimp only
  have hg0 : cumTiles st.meta.chunk_descs 0 + 0 < totalTiles st.meta.chunk_descs := by
    simp [cumTiles]
    exact hT
  obtain ⟨st2, heq, htiles, hmeta, hAt⟩ :=
    readAuxAt f ⟨st.tiles, st.meta, some 0, some (bs0, 0)⟩ 0 0 bs0 d0
      (wf_update hwf rfl rfl)
      (by show st.meta.chunk_descs.length - 0 < f; omega) rfl
      (by show some (bs0, 0) = some (bs0, 9 * 0); rfl)
      hd0 ht0 (Nat.zero_le _) hg0
  refine ⟨st2, ?_, htiles, hmeta, ?_⟩
  · rw [heq]
    show (Except.ok (st.recordBytes (cumTiles st.meta.chunk_descs 0 + 0)), st2) =
      (Except.ok (st.recordBytes 0), st2)
    have : cumTiles st.meta.chunk_descs 0 + 0 = 0 := by simp [cumTiles]
    rw [this]
  · have hAt2 : AtIdx st2 (cumTiles st.meta.chunk_descs 0 + 0 + 1) := hAt
    have : cumTiles st.meta.chunk_descs 0 + 0 + 1 = 1 := by simp [cumTiles]
    rw [this] at hAt2
    exact hAt2

theorem read9_at (st : PlacedArchiveReader) (g : Nat) (hwf : wfReader st)
    (hAt : AtIdx st g) (hg : g < totalTiles st.meta.chunk_descs) :
    ∃ st2, st.read 9 = (.ok (st.recordBytes g), st2) ∧
      st2.tiles = st.tiles ∧ st2.meta = st.meta ∧ AtIdx st2 (g + 1) := by
  rcases hAt with ⟨hid, hdata, hg0⟩ | ⟨c, j, bs, d, hid, hd, ht, hdata, hj, hgeq⟩
  · subst hg0
    exact readAux_at_start _ st hwf hid hdata (by omega) (by omega)
  · subst hgeq
    exact readAuxAt _ st c j bs d hwf (by omega) hid hdata hd ht hj hg

theorem decodedAt_congr {st st2 : PlacedArchiveReader}
    (h1 : st2.tiles = st.tiles) (h2 : st2.meta = st.meta) :
    st2.decodedAt = st.decodedAt := by
  funext g
  unfold PlacedArchiveReader.decodedAt PlacedArchiveReader.storedAt
    PlacedArchiveReader.recordBytes PlacedArchiveReader.streamBytes
  rw [h1, h2]

theorem decodeStored_of_length {bs : List Nat} (h : bs.length = 9) :
    ∃ r, decodeStored bs = some r := by
  match bs, h with
  | [b0, b1, b2, b3, b4, b5, b6, b7, b8], _ => exact ⟨_, rfl⟩

theorem next_at (st : PlacedArchiveReader) (g : Nat) (hwf : wfReader st)
    (hAt : AtIdx st g) (hg : g < totalTiles st.meta.chunk_descs)
    (hpal : (st.decodedAt g).isSome = true) :
    ∃ v st2, st.decodedAt g = some v ∧ st.next = some (v, st2) ∧
      st2.tiles = st.tiles ∧ st2.meta = st.meta ∧ AtIdx st2 (g + 1) := by
  obtain ⟨st2, hread, htiles, hmeta, hAt2⟩ := read9_at st g hwf hAt hg
  have hrblen : (st.recordBytes g).length = 9 := recordBytes_length hwf hg
  obtain ⟨r, hr⟩ : ∃ r, decodeStored (st.recordBytes g) = some r :=
    decodeStored_of_length hrblen
  obtain ⟨v, hv⟩ := Option.isSome_iff_exists.mp hpal
  unfold PlacedArchiveReader.decodedAt at hv
  rw [show st.storedAt g = some r from hr] at hv
  dsimp only at hv
  cases hlook : assocLookup st.meta.color_id_to_tuple r.color_index with
  | none =>
    rw [hlook] at hv
    simp at hv
  | some col =>
    rw [hlook] at hv
    simp at hv
    obtain ⟨b0, rest, hbytes⟩ : ∃ b0 rest, st.recordBytes g = b0 :: rest := by
      rcases hb : st.recordBytes g with _ | ⟨b0, rest⟩
      · rw [hb] at hrblen; simp at hrblen
      · exact ⟨b0, rest, rfl⟩
    have hread' : st.read (8 + 1) = (.ok (st.recordBytes g), st2) := hread
    have hstep1 : PlacedArchiveReader.readExactAux (9 + 1) st (8 + 1) =
        some (st.recordBytes g, st2) := by
      rw [PlacedArchiveReader.readExactAux, hread', hbytes]
      dsimp only
      have hlen9 : (8 : Nat) + 1 - (b0 :: rest).length = 0 := by
        rw [← hbytes, hrblen]
      rw [hlen9]
      have hz : PlacedArchiveReader.readExactAux 9 st2 0 = some ([], st2) := rfl
      rw [hz]
      rw [← hbytes]
      simp
    have hstep1' : PlacedArchiveReader.readExactAux (9 + 1) st 9 =
        some (st.recordBytes g, st2) := hstep1
    refine ⟨v, st2, ?_, ?_, htiles, hmeta, hAt2⟩
    · unfold PlacedArchiveReader.decodedAt
      rw [show st.storedAt g = some r from hr]
      dsimp only
      rw [hlook, ← hv]
    · unfold PlacedArchiveReader.next PlacedArchiveReader.readExact
      rw [StoredTilePlacement.encodedSize_eq]
      rw [hstep1']
      dsimp only
      rw [hr]
      dsimp only
      rw [hlook]
      dsimp only
      rw [← hv]

theorem nthRecord_at (k : Nat) :
    ∀ (st : PlacedArchiveReader) (g : Nat), wfReader st → AtIdx st g →
    g + k < totalTiles st.meta.chunk_descs →
    (∀ i, i ≤ k → (st.decodedAt (g + i)).isSome = true) →
    st.nthRecord k = st.decodedAt (g + k) := by
  induction k with
  | zero =>
    intro st g hwf hAt hg hpal
    obtain ⟨v, st2, hdec, hnext, _, _, _⟩ :=
      next_at st g hwf hAt (by omega) (by simpa using hpal 0 (Nat.le_refl 0))
    rw [PlacedArchiveReader.nthRecord, hnext]
    rw [show g + 0 = g by omega, hdec]
    rfl
  | succ k ih =>
    intro st g hwf hAt hg hpal
    have hpal0 : (st.decodedAt (g + 0)).isSome = true := hpal 0 (Nat.zero_le _)
    obtain ⟨v, st2, hdec, hnext, htiles, hmeta, hAt2⟩ :=
      next_at st g hwf hAt (by omega) (by simpa using hpal0)
    rw [PlacedArchiveReader.nthRecord, hnext]
    dsimp only
    have hwf2 : wfReader st2 := wf_update hwf htiles hmeta
    have hcongr : st2.decodedAt = st.decodedAt := decodedAt_congr htiles hmeta
    have hrec := ih st2 (g + 1) hwf2 hAt2 (by rw [hmeta]; omega)
      (by
        intro i hi
        rw [hcongr]
        have h2 := hpal (i + 1) (by omega)
        rw [show g + 1 + i = g + (i + 1) by omega]
        exact h2)
    rw [hrec, hcongr, show g + 1 + k = g + (k + 1) by omega]

theorem findChunkAux_spec :
    ∀ (descs : List ChunkDescription) (k cid coff : Nat),
    coff ≤ k → k ≤ coff + totalTiles descs → descs ≠ [] →
    ∃ dlt d, dlt < descs.length ∧ descs.get? dlt = some d ∧
      findChunkAux descs k cid coff = (cid + dlt, coff + cumTiles descs dlt) ∧
      coff + cumTiles descs dlt ≤ k ∧
      k ≤ coff + cumTiles descs dlt + d.num_tiles := by
  intro descs
  induction descs with
  | nil => intro k cid coff _ _ hne; exact absurd rfl hne
  | cons d rest ih =>
    intro k cid coff hle hub _
    by_cases h : k ≤ coff + d.num_tiles
    · refine ⟨0, d, by simp, rfl, ?_, ?_, ?_⟩
      · rw [findChunkAux, if_pos h]
        simp [cumTiles]
      · simpa [cumTiles] using hle
      · simpa [cumTiles] using h
    · push_neg at h
      by_cases hre : rest = []
      · subst hre
        simp [totalTiles] at hub
        omega
      · have hub1 : k ≤ coff + d.num_tiles + totalTiles rest := by
          have : totalTiles (d :: rest) = d.num_tiles + totalTiles rest := by
            simp [totalTiles]
          omega
        obtain ⟨dlt, dd, hlt, hget, heq, hlo, hhi⟩ :=
          ih k (cid + 1) (coff + d.num_tiles) (by omega) hub1 hre
        have hcum : cumTiles (d :: rest) (dlt + 1) = d.num_tiles + cumTiles rest dlt := by
          simp [cumTiles, List.take_succ_cons]
        refine ⟨dlt + 1, dd, by simp; omega, by simpa using hget, ?_, by omega, by omega⟩
        rw [findChunkAux, if_neg (by omega), heq, hcum]
        simp only [Prod.mk.injEq]
        omega

theorem seekStart_at (st : PlacedArchiveReader) (k : Nat) (hwf : wfReader st)
    (hk : k < totalTiles st.meta.chunk_descs) :
    ∃ st1, st.seekFromStart (9 * k) = (.ok (9 * k), st1) ∧
      st1.tiles = st.tiles ∧ st1.meta = st.meta ∧ AtIdx st1 k := by
  have hne : st.meta.chunk_descs ≠ [] := by
    intro hnil
    rw [hnil] at hk
    simp [totalTiles] at hk
  obtain ⟨c, d, hclt, hget, heqfind, hlo, hhi⟩ :=
    findChunkAux_spec st.meta.chunk_descs k 0 0 (Nat.zero_le _) (by omega) hne
  rw [Nat.zero_add, Nat.zero_add] at heqfind
  obtain ⟨bs, d', ht, hd', hlen⟩ := chunkOk_extract (c := c) hwf hclt
  have hload : st.loadChunkById c =
      .ok ⟨st.tiles, st.meta, st.current_tile_chunk_id, some (bs, 0)⟩ := by
    unfold PlacedArchiveReader.loadChunkById PlacedArchiveReader.getFile
    rw [ht]
    rfl
  refine ⟨⟨st.tiles, st.meta, some c,
      some (bs, 9 * (k - cumTiles st.meta.chunk_descs c))⟩, ?_, rfl, rfl, ?_⟩
  · unfold PlacedArchiveReader.seekFromStart
    rw [StoredTilePlacement.encodedSize_eq]
    dsimp only
    rw [Nat.mul_div_cancel_left k (by norm_num : 0 < 9), heqfind]
    dsimp only
    rw [hload]
    dsimp only
    rw [Nat.mul_mod_right, Nat.zero_add,
      Nat.mul_comm (k - cumTiles st.meta.chunk_descs c) 9]
  · right
    refine ⟨c, k - cumTiles st.meta.chunk_descs c, bs, d, rfl, hget, ht, rfl, ?_, ?_⟩
    · omega
    · show k = cumTiles st.meta.chunk_descs c + (k - cumTiles st.meta.chunk_descs c)
      omega

/-- C1: seek/iterate consistency. For a well-formed archive (one present
container entry of exactly `9 * num_tiles` bytes per chunk description) read
from a fresh reader, and any record index `k` below the total record count
whose first `k + 1` records all palette-resolve, `seek(SeekFrom::Start(k *
encoded_size()))` returns `Ok` with the requested offset and a single `next`
from the resulting state yields exactly the `k`-th item of a full sequential
iteration from the start — including when the offset falls exactly on a chunk
boundary. -/
theorem c1_seek_iterate_consistency (st : PlacedArchiveReader) (k : Nat)
    (hwf : wfReader st)
    (hid : st.current_tile_chunk_id = none)
    (hdata : st.current_tile_chunk_data = none)
    (hk : k < totalTiles st.meta.chunk_descs)
    (hpal : ∀ i, i ≤ k → (st.decodedAt i).isSome = true) :
    ∃ st1 v st2,
      st.seekFromStart (StoredTilePlacement.encodedSize * k) =
        (.ok (StoredTilePlacement.encodedSize * k), st1) ∧
      st1.next = some (v, st2) ∧
      st.nthRecord k = some v := by
  rw [StoredTilePlacement.encodedSize_eq]
  obtain ⟨st1, hseek, htiles1, hmeta1, hAt1⟩ := seekStart_at st k hwf hk
  have hwf1 : wfReader st1 := wf_update hwf htiles1 hmeta1
  have hcongr1 : st1.decodedAt = st.decodedAt := decodedAt_congr htiles1 hmeta1
  obtain ⟨v, st2, hdec, hnext, _, _, _⟩ :=
    next_at st1 k hwf1 hAt1 (by rw [hmeta1]; exact hk)
      (by rw [hcongr1]; exact hpal k (Nat.le_refl k))
  refine ⟨st1, v, st2, hseek, hnext, ?_⟩
  have hnth := nthRecord_at k st 0 hwf (Or.inl ⟨hid, hdata, rfl⟩)
    (by omega) (by intro i hi; simpa using hpal i hi)
  rw [hnth, show (0 : Nat) + k = k by omega, ← hcongr1]
  exact hdec

/-- A two-chunk container: chunk 0 holds records 0 and 1 (18 bytes), chunk 1
holds record 2; every record uses palette index 0, which the metadata maps. -/
def c1Reader : PlacedArchiveReader :=
  { tiles := [.present [1, 0, 1, 0, 0, 10, 0, 0, 0, 2, 0, 2, 0, 0, 20, 0, 0, 0],
              .present [3, 0, 3, 0, 0, 30, 0, 0, 0]],
    meta := ⟨[⟨2000, 2000, 0⟩], 3, 30, [(0, (9, 8, 7, 255))], [⟨0, 20, 2⟩, ⟨1, 30, 1⟩]⟩,
    current_tile_chunk_id := none,
    current_tile_chunk_data := none }

/-- Witness for C1 at a two-chunk container where `k = 2` makes the seek
offset land exactly on the chunk boundary. -/
theorem c1_seek_iterate_consistency_witness :
    wfReader c1Reader ∧ 2 < totalTiles c1Reader.meta.chunk_descs ∧
    (∀ i, i ≤ 2 → (c1Reader.decodedAt i).isSome = true) ∧
    (∃ st1 v st2,
      c1Reader.seekFromStart (StoredTilePlacement.encodedSize * 2) =
        (.ok (StoredTilePlacement.encodedSize * 2), st1) ∧
      st1.next = some (v, st2) ∧
      c1Reader.nthRecord 2 = some v) :=
  ⟨⟨by decide, by decide⟩, by decide, by decide,
    c1_seek_iterate_consistency c1Reader 2 ⟨by decide, by decide⟩ rfl rfl
      (by decide) (by decide)⟩
